import Mathlib

/-!
Shallow embedding of the go-di hierarchical dependency-injection container
(`container.go`).  Containers form a parent-linked tree; the tree is modelled
as an arena: a list of container states indexed by natural numbers, each
holding an optional parent index.  Go reference pointers used as cache keys
(the `*factory` identity) are modelled by a unique natural `fid` assigned at
registration.  Constructors (`func(Container) (interface{}, error)`) are
modelled by a small syntax `CtorSpec` whose evaluation mirrors the closures
the library itself builds (`UseValue`, `UseType`) plus a fresh-allocation
and a failing constructor for user factories.  The mutually recursive
Resolve/createInstance/constructor/Inject evaluation is given a fuel
parameter standing for the call-stack budget (the Go code has no cycle
detection and can recurse forever; fuel exhaustion surfaces as a sentinel
error that adequately fuelled runs never reach).
-/

namespace GoDi

/-- Lifetime of instances produced by a factory (container.go lines 8-23). -/
inductive Lifetime where
  | Transient
  | Scoped
  | Singleton
  deriving DecidableEq

/-- Runtime values (`interface{}` instances).  `obj n` is a reference with
allocation identity `n` (so that reference equality of freshly constructed
instances is observable); `record fs` is a struct whose fields carry a name,
an optional `di:"tag"` annotation taken from the struct type, and the
current field value. -/
inductive Value where
  | unit
  | vnat (n : Nat)
  | vstr (s : String)
  | obj (allocId : Nat)
  | record (fields : List (String × Option String × Value))

/-- Constructor behaviour of a factory.
`value v` is the closure built by `UseValue` (returns the captured value);
`typeStruct fields` is the synthetic closure built by `UseType` for a struct
type (allocate a zero value, run `c.Inject` on it discarding the result,
return the instance; lines 165-194);
`fresh` is a user factory allocating a new object;
`fail msg` is a user factory returning an error. -/
inductive CtorSpec where
  | value (v : Value)
  | fresh
  | fail (msg : String)
  | typeStruct (fields : List (String × Option String))

/-- Destructor behaviour: succeed, or return an error. -/
inductive DtorSpec where
  | ok
  | fail (msg : String)
  deriving DecidableEq

/-- An alias declaration appended by `Use` (container.go lines 123-126). -/
structure AliasDecl where
  tag : String
  aliased : String
  deriving DecidableEq

/-- A factory record (container.go lines 128-133).  `fid` models the Go
pointer identity of the `*factory`, used as the cache key. -/
structure Factory where
  fid : Nat
  tag : String
  lifetime : Lifetime
  ctor : CtorSpec
  dtor : Option DtorSpec

/-- A pending teardown closure `func() error` recorded on a container:
it is bound to the factory's destructor and the produced instance
(container.go lines 312-329). -/
structure Pending where
  fid : Nat
  inst : Value
  spec : DtorSpec

/-- State of one container (container.go lines 114-121). -/
structure ContainerState where
  parent : Option Nat
  aliases : List AliasDecl
  factories : List Factory
  cache : List (Nat × Value)
  destructors : List Pending

def emptyCS : ContainerState := ⟨none, [], [], [], []⟩

/-- The whole arena of containers plus the allocation and factory-identity
counters. -/
structure World where
  containers : List ContainerState
  nextAlloc : Nat
  nextFid : Nat

/-- Initial world: just the parentless root registry (`newContainer(nil)`). -/
def World.init : World := ⟨[emptyCS], 0, 0⟩

def ctsOf (w : World) (i : Nat) : ContainerState := w.containers.getD i emptyCS

def parentOf (w : World) (i : Nat) : Option Nat := (ctsOf w i).parent

def aliasesOf (w : World) (i : Nat) : List AliasDecl := (ctsOf w i).aliases

def factoriesOf (w : World) (i : Nat) : List Factory := (ctsOf w i).factories

def cacheOf (w : World) (i : Nat) : List (Nat × Value) := (ctsOf w i).cache

def destructorsOf (w : World) (i : Nat) : List Pending := (ctsOf w i).destructors

def modifyNth (f : ContainerState → ContainerState) :
    Nat → List ContainerState → List ContainerState
  | _, [] => []
  | 0, a :: l => f a :: l
  | n+1, a :: l => a :: modifyNth f n l

def modifyCS (w : World) (i : Nat) (f : ContainerState → ContainerState) : World :=
  { w with containers := modifyNth f i w.containers }

/-- Store into a container's cache (`c.cache[f] = instance`): a Go map
assignment, modelled by prepending to the association list so that the most
recent write wins on lookup. -/
def cacheStore (w : World) (i fid : Nat) (v : Value) : World :=
  modifyCS w i fun cs => { cs with cache := (fid, v) :: cs.cache }

/-- Append a teardown closure to a container's pending-destructor list
(`c.destructors = append(c.destructors, ...)`). -/
def pushDtor (w : World) (i : Nat) (p : Pending) : World :=
  modifyCS w i fun cs => { cs with destructors := cs.destructors ++ [p] }

/-- Allocate a fresh object identity. -/
def allocObj (w : World) : World × Nat :=
  ({ w with nextAlloc := w.nextAlloc + 1 }, w.nextAlloc)

def cacheGet : List (Nat × Value) → Nat → Option Value
  | [], _ => none
  | (k, v) :: rest, fid => if k = fid then some v else cacheGet rest fid

def lookupCache (w : World) (i fid : Nat) : Option Value := cacheGet (cacheOf w i) fid

/-- Walk `parent` links to their end (the inner `root` function of
`createInstance`, container.go lines 273-277).  The Go loop terminates
because parent links cannot cycle; in the arena model every well-formed
world has `parent < child`, so a fuel of `c` steps always suffices. -/
def rootAux (w : World) : Nat → Nat → Nat
  | 0, c => c
  | fuel+1, c =>
    match parentOf w c with
    | none => c
    | some p => rootAux w fuel p

def rootOf (w : World) (c : Nat) : Nat := rootAux w c c

/-- The container chain `this, this.parent, ...` walked by Resolve /
ResolveAll / resolveAliases (`for c := this; c != nil; c = c.parent`). -/
def chainAux (w : World) : Nat → Nat → List Nat
  | 0, c => [c]
  | fuel+1, c =>
    c :: (match parentOf w c with
          | none => []
          | some p => chainAux w fuel p)

def chain (w : World) (c : Nat) : List Nat := chainAux w c c

/-- One scan of the alias declarations for worklist entry `t`
(container.go lines 247-266): for every alias whose `Tag` equals `t`,
append its `Aliased` tag unless it is already present. -/
def expandTag (t : String) : List AliasDecl → List String → List String
  | [], tags => tags
  | a :: rest, tags =>
    if t = a.tag ∧ a.aliased ∉ tags then expandTag t rest (tags ++ [a.aliased])
    else expandTag t rest tags

/-- All alias declarations seen by `resolveAliases`, in scan order:
the container's own, then each ancestor's. -/
def aliasesOfChain (w : World) (c : Nat) : List AliasDecl :=
  (chain w c).flatMap (aliasesOf w)

/-- The worklist loop of `resolveAliases` (container.go lines 243-270):
`for i := 0; i < len(tags); i++`, expanding `tags[i]`.  The loop is run on
fuel; `|aliases| + 1` iterations always suffice because the duplicate check
keeps `tags` duplicate-free inside a set of at most `|aliases| + 1` tags. -/
def resolveAliasesAux (al : List AliasDecl) : Nat → Nat → List String → List String
  | 0, _, tags => tags
  | fuel+1, i, tags =>
    if h : i < tags.length then
      resolveAliasesAux al fuel (i+1) (expandTag tags[i] al tags)
    else tags

def resolveAliases (w : World) (c : Nat) (tag : String) : List String :=
  let al := aliasesOfChain w c
  resolveAliasesAux al (al.length + 1) 0 [tag]

/-- Scan one container's factory list from most-recently registered to
least (`for i := len(c.factories) - 1; 0 <= i; i--`), returning the first
whose tag is in the alias set. -/
def findLast (tags : List String) : List Factory → Option Factory
  | [] => none
  | f :: rest =>
    match findLast tags rest with
    | some g => some g
    | none => if f.tag ∈ tags then some f else none

def searchChain (w : World) (tags : List String) : List Nat → Option Factory
  | [] => none
  | i :: rest =>
    match findLast tags (factoriesOf w i) with
    | some f => some f
    | none => searchChain w tags rest

/-- Factory search of `Resolve` (container.go lines 335-350). -/
def findFactory (w : World) (c : Nat) (tags : List String) : Option Factory :=
  searchChain w tags (chain w c)

/-- All matches in one container, most-recently-registered first
(the collection loop of `ResolveAll`). -/
def matchesRev (tags : List String) : List Factory → List Factory
  | [] => []
  | f :: rest => matchesRev tags rest ++ (if f.tag ∈ tags then [f] else [])

def collectChain (w : World) (tags : List String) : List Nat → List Factory
  | [] => []
  | i :: rest => matchesRev tags (factoriesOf w i) ++ collectChain w tags rest

/-- Factory collection of `ResolveAll` (container.go lines 360-374):
calling container first, most-recent-first within each container. -/
def collectFactories (w : World) (c : Nat) (tag : String) : List Factory :=
  collectChain w (resolveAliases w c tag) (chain w c)

def errNoMatchingTag : String := "no matching tag found"

/-- Sentinel for exhausted model fuel; the Go code would instead recurse
further (it has no cycle detection). -/
def errOutOfFuel : String := "construction recursion exceeded model fuel"

/-- The cache consultation at the top of `createInstance`
(container.go lines 279-294): Scoped reads the calling container's cache,
Singleton the root's, Transient reads nothing. -/
def cacheProbe (w : World) (c root : Nat) (f : Factory) : Option Value :=
  match f.lifetime with
  | .Transient => none
  | .Scoped => lookupCache w c f.fid
  | .Singleton => lookupCache w root f.fid

/-- The cache population after a successful constructor call
(container.go lines 301-310). -/
def storeStep (w : World) (c root : Nat) (f : Factory) (inst : Value) : World :=
  match f.lifetime with
  | .Transient => w
  | .Scoped => cacheStore w c f.fid inst
  | .Singleton => cacheStore w root f.fid inst

/-- The destructor recording after a successful constructor call
(container.go lines 312-329): Transient and Scoped record on the calling
container, Singleton on the root; nothing is recorded without a destructor. -/
def dtorStep (w : World) (c root : Nat) (f : Factory) (inst : Value) : World :=
  match f.dtor with
  | none => w
  | some d =>
    match f.lifetime with
    | .Transient => pushDtor w c ⟨f.fid, inst, d⟩
    | .Scoped => pushDtor w c ⟨f.fid, inst, d⟩
    | .Singleton => pushDtor w root ⟨f.fid, inst, d⟩

mutual

/-- `Resolve` (container.go lines 334-357): compute the alias set, search
the chain for the most recent matching factory, then create the instance;
with no match return `ErrNoMatchingTag`. -/
def resolveFuel : Nat → World → Nat → String → World × Except String Value
  | 0, w, _, _ => (w, .error errOutOfFuel)
  | fuel+1, w, c, tag =>
    match findFactory w c (resolveAliases w c tag) with
    | some f => createFuel fuel w c f
    | none => (w, .error errNoMatchingTag)
termination_by structural fuel _ _ _ => fuel

/-- `createInstance` (container.go lines 272-332). -/
def createFuel : Nat → World → Nat → Factory → World × Except String Value
  | 0, w, _, _ => (w, .error errOutOfFuel)
  | fuel+1, w, c, f =>
    let root := rootOf w c
    match cacheProbe w c root f with
    | some cached => (w, .ok cached)
    | none =>
      match runCtorFuel fuel w c f.ctor with
      | (w1, .error e) => (w1, .error e)
      | (w1, .ok inst) => (dtorStep (storeStep w1 c root f inst) c root f inst, .ok inst)
termination_by structural fuel _ _ _ => fuel

/-- Evaluation of a constructor closure `f.Constructor(this)`. -/
def runCtorFuel : Nat → World → Nat → CtorSpec → World × Except String Value
  | 0, w, _, _ => (w, .error errOutOfFuel)
  | _+1, w, _, .value v => (w, .ok v)
  | _+1, w, _, .fail e => (w, .error e)
  | _+1, w, _, .fresh =>
    let wa := allocObj w
    (wa.1, .ok (.obj wa.2))
  | fuel+1, w, c, .typeStruct fields =>
    let zero := fields.map fun p => (p.1, p.2, Value.unit)
    let r := injectFieldsFuel fuel w c zero
    (r.1, .ok (.record r.2.1))
termination_by structural fuel _ _ _ => fuel

/-- The field loop of `Inject` (container.go lines 398-407): for each field
whose type carries a `di:"tag"` annotation, `Resolve` the tag and assign the
result; the first resolution error aborts the loop (already assigned fields
keep their values) and is returned. -/
def injectFieldsFuel : Nat → World → Nat → List (String × Option String × Value) →
    World × List (String × Option String × Value) × Option String
  | 0, w, _, fields => (w, fields, some errOutOfFuel)
  | _+1, w, _, [] => (w, [], none)
  | fuel+1, w, c, (nm, none, v) :: rest =>
    let r := injectFieldsFuel fuel w c rest
    (r.1, (nm, none, v) :: r.2.1, r.2.2)
  | fuel+1, w, c, (nm, some tg, v) :: rest =>
    match resolveFuel fuel w c tg with
    | (w1, .error e) => (w1, (nm, some tg, v) :: rest, some e)
    | (w1, .ok rv) =>
      let r := injectFieldsFuel fuel w1 c rest
      (r.1, (nm, some tg, rv) :: r.2.1, r.2.2)
termination_by structural fuel _ _ _ => fuel

end

/-- Observable outcome of the public `Inject` (container.go lines 388-410):
a panic on a non-struct target, otherwise the (partially) injected record
together with the returned error, if any. -/
inductive InjectResult where
  | panicked
  | ok (v : Value)
  | err (e : String) (vAfter : Value)

/-- Public `Inject`: the target must be a record (struct or pointer to
struct); anything else panics (container.go lines 389-395). -/
def injectValue (fuel : Nat) (w : World) (c : Nat) (v : Value) : World × InjectResult :=
  match v with
  | .record fields =>
    match injectFieldsFuel fuel w c fields with
    | (w1, fs, some e) => (w1, .err e (.record fs))
    | (w1, fs, none) => (w1, .ok (.record fs))
  | _ => (w, .panicked)

/-- The construction loop of `ResolveAll` (container.go lines 376-385):
iterate the collected factories from the last index down, appending each
instance; a constructor error aborts and is returned with no result list. -/
def resolveAllLoop (fuel : Nat) (c : Nat) : World → List Factory → World × Except String (List Value)
  | w, [] => (w, .ok [])
  | w, f :: rest =>
    match createFuel fuel w c f with
    | (w1, .error e) => (w1, .error e)
    | (w1, .ok v) =>
      match resolveAllLoop fuel c w1 rest with
      | (w2, .error e) => (w2, .error e)
      | (w2, .ok vs) => (w2, .ok (v :: vs))

/-- `ResolveAll` (container.go lines 359-386).  Note: with no matching
factory the collected list is empty and the loop returns an empty slice
with a nil error. -/
def resolveAllFuel (fuel : Nat) (w : World) (c : Nat) (tag : String) :
    World × Except String (List Value) :=
  resolveAllLoop fuel c w (collectFactories w c tag).reverse

/-- Run a snapshot of pending destructors in the given order, stopping at
the first error; also report which entries were invoked, in order. -/
def runDtors : List Pending → List Pending × Except String Unit
  | [] => ([], .ok ())
  | d :: rest =>
    match d.spec with
    | .ok =>
      let r := runDtors rest
      (d :: r.1, r.2)
    | .fail e => ([d], .error e)

/-- `Close` (container.go lines 412-427): snapshot and clear the
container's own destructor list, then invoke the closures in reverse order
of registration, returning the first error. -/
def closeContainer (w : World) (c : Nat) : World × Except String Unit :=
  let ds := destructorsOf w c
  let w1 := modifyCS w c fun cs => { cs with destructors := [] }
  (w1, (runDtors ds.reverse).2)

/-- `NewScope` (container.go lines 146-148): append a fresh child container
whose parent is `c`; its index is the previous arena size. -/
def newScope (w : World) (c : Nat) : World × Nat :=
  ({ w with containers := w.containers ++ [{ emptyCS with parent := some c }] },
   w.containers.length)

/-- `UseFactory` (container.go lines 210-220): append a factory record with
a fresh identity. -/
def useFactoryOp (w : World) (c : Nat) (tag : String) (spec : CtorSpec)
    (dtor : Option DtorSpec) (lt : Lifetime) : World :=
  let w1 := modifyCS w c fun cs =>
    { cs with factories := cs.factories ++ [⟨w.nextFid, tag, lt, spec, dtor⟩] }
  { w1 with nextFid := w.nextFid + 1 }

/-- `UseValue` (container.go lines 196-208): a Transient constant factory,
no destructor. -/
def useValueOp (w : World) (c : Nat) (tag : String) (v : Value) : World :=
  useFactoryOp w c tag (.value v) none .Transient

/-- `UseType` (container.go lines 165-194) for a struct type: the synthetic
injecting constructor, no destructor. -/
def useTypeOp (w : World) (c : Nat) (tag : String)
    (fields : List (String × Option String)) (lt : Lifetime) : World :=
  useFactoryOp w c tag (.typeStruct fields) none lt

/-- `Use` (container.go lines 222-230): append an alias declaration. -/
def useOp (w : World) (c : Nat) (tag aliased : String) : World :=
  modifyCS w c fun cs => { cs with aliases := cs.aliases ++ [⟨tag, aliased⟩] }

/-- Well-formed parent links: every parent index is strictly below its
child, which is what `NewScope` maintains and what makes the Go parent
walks terminate. -/
def WFw (w : World) : Prop :=
  ((List.range w.containers.length).all fun i =>
    match parentOf w i with
    | none => true
    | some p => decide (p < i)) = true

/-- All registered factories of the arena. -/
def allFacs (w : World) : List Factory := w.containers.flatMap fun cs => cs.factories

/-- A factory is registered somewhere in the arena. -/
def FacIn (w : World) (g : Factory) : Prop := ∃ i, g ∈ factoriesOf w i

/-- Factory identities are pairwise distinct, as Go pointer identities are. -/
def FidsDistinct (w : World) : Prop := ((allFacs w).map fun f => f.fid).Nodup

/-! Basic lemmas about the arena primitives. -/

theorem modifyNth_length (f : ContainerState → ContainerState) :
    ∀ (i : Nat) (l : List ContainerState), (modifyNth f i l).length = l.length := by
  intro i l
  induction l generalizing i with
  | nil => cases i <;> rfl
  | cons a l ih =>
    cases i with
    | zero => rfl
    | succ i => simpa [modifyNth] using ih i

theorem getD_modifyNth_ne (f : ContainerState → ContainerState) :
    ∀ (l : List ContainerState) (i j : Nat), j ≠ i →
      (modifyNth f i l).getD j emptyCS = l.getD j emptyCS := by
  intro l
  induction l with
  | nil => intro i j _; cases i <;> rfl
  | cons a l ih =>
    intro i j hne
    cases i with
    | zero =>
      cases j with
      | zero => exact absurd rfl hne
      | succ j => simp [modifyNth]
    | succ i =>
      cases j with
      | zero => simp [modifyNth]
      | succ j => simpa [modifyNth] using ih i j (by omega)

theorem getD_modifyNth_self (f : ContainerState → ContainerState) :
    ∀ (l : List ContainerState) (i : Nat), i < l.length →
      (modifyNth f i l).getD i emptyCS = f (l.getD i emptyCS) := by
  intro l
  induction l with
  | nil => intro i h; simp at h
  | cons a l ih =>
    intro i h
    cases i with
    | zero => rfl
    | succ i => simpa [modifyNth] using ih i (by simpa using h)

theorem modifyNth_oob (f : ContainerState → ContainerState) :
    ∀ (l : List ContainerState) (i : Nat), l.length ≤ i → modifyNth f i l = l := by
  intro l
  induction l with
  | nil => intro i _; cases i <;> rfl
  | cons a l ih =>
    intro i h
    cases i with
    | zero => simp at h
    | succ i => simpa [modifyNth] using ih i (by simpa using h)

theorem ctsOf_modifyCS (w : World) (i : Nat) (g : ContainerState → ContainerState) (j : Nat) :
    ctsOf (modifyCS w i g) j =
      if j = i ∧ i < w.containers.length then g (ctsOf w j) else ctsOf w j := by
  unfold ctsOf modifyCS
  by_cases hj : j = i
  · subst hj
    by_cases hr : j < w.containers.length
    · rw [getD_modifyNth_self g _ _ hr]
      simp [hr]
    · rw [modifyNth_oob g _ _ (by omega)]
      simp [hr]
  · rw [getD_modifyNth_ne g _ _ _ hj]
    simp [hj]

theorem containers_length_modifyCS (w : World) (i : Nat) (g : ContainerState → ContainerState) :
    (modifyCS w i g).containers.length = w.containers.length :=
  modifyNth_length g i w.containers

theorem ctsOf_oob (w : World) {i : Nat} (h : w.containers.length ≤ i) : ctsOf w i = emptyCS := by
  unfold ctsOf
  exact List.getD_eq_default _ _ (by omega)

/-! Accessor lemmas for each state-changing primitive. -/

theorem parentOf_modifyCS (w : World) (i : Nat) (g : ContainerState → ContainerState)
    (hg : ∀ cs, (g cs).parent = cs.parent) (j : Nat) :
    parentOf (modifyCS w i g) j = parentOf w j := by
  unfold parentOf
  rw [ctsOf_modifyCS]
  split
  · exact hg _
  · rfl

theorem factoriesOf_modifyCS (w : World) (i : Nat) (g : ContainerState → ContainerState)
    (hg : ∀ cs, (g cs).factories = cs.factories) (j : Nat) :
    factoriesOf (modifyCS w i g) j = factoriesOf w j := by
  unfold factoriesOf
  rw [ctsOf_modifyCS]
  split
  · exact hg _
  · rfl

theorem aliasesOf_modifyCS (w : World) (i : Nat) (g : ContainerState → ContainerState)
    (hg : ∀ cs, (g cs).aliases = cs.aliases) (j : Nat) :
    aliasesOf (modifyCS w i g) j = aliasesOf w j := by
  unfold aliasesOf
  rw [ctsOf_modifyCS]
  split
  · exact hg _
  · rfl

theorem cacheOf_modifyCS (w : World) (i : Nat) (g : ContainerState → ContainerState)
    (hg : ∀ cs, (g cs).cache = cs.cache) (j : Nat) :
    cacheOf (modifyCS w i g) j = cacheOf w j := by
  unfold cacheOf
  rw [ctsOf_modifyCS]
  split
  · exact hg _
  · rfl

theorem destructorsOf_modifyCS (w : World) (i : Nat) (g : ContainerState → ContainerState)
    (hg : ∀ cs, (g cs).destructors = cs.destructors) (j : Nat) :
    destructorsOf (modifyCS w i g) j = destructorsOf w j := by
  unfold destructorsOf
  rw [ctsOf_modifyCS]
  split
  · exact hg _
  · rfl

theorem cacheOf_modifyCS_ne (w : World) (i : Nat) (g : ContainerState → ContainerState)
    {j : Nat} (hne : j ≠ i) : cacheOf (modifyCS w i g) j = cacheOf w j := by
  unfold cacheOf
  rw [ctsOf_modifyCS]
  simp [hne]

theorem lookupCache_cacheStore_self (w : World) {i : Nat} (fid : Nat) (v : Value)
    (h : i < w.containers.length) : lookupCache (cacheStore w i fid v) i fid = some v := by
  unfold lookupCache cacheOf cacheStore
  rw [ctsOf_modifyCS]
  simp [h, cacheGet]

theorem lookupCache_cacheStore_ne (w : World) {i j : Nat} {fid φ : Nat} (v : Value)
    (h : j ≠ i ∨ φ ≠ fid) : lookupCache (cacheStore w i fid v) j φ = lookupCache w j φ := by
  unfold lookupCache cacheOf cacheStore
  rw [ctsOf_modifyCS]
  split
  · next hcond =>
    rcases h with h | h
    · exact absurd hcond.1 h
    · simp only [cacheGet]
      rw [if_neg (by omega)]
  · rfl

theorem parentOf_cacheStore (w : World) (i fid : Nat) (v : Value) (j : Nat) :
    parentOf (cacheStore w i fid v) j = parentOf w j := by
  unfold cacheStore
  exact parentOf_modifyCS w i (fun cs => { cs with cache := (fid, v) :: cs.cache }) (fun _ => rfl) j

theorem factoriesOf_cacheStore (w : World) (i fid : Nat) (v : Value) (j : Nat) :
    factoriesOf (cacheStore w i fid v) j = factoriesOf w j := by
  unfold cacheStore
  exact factoriesOf_modifyCS w i (fun cs => { cs with cache := (fid, v) :: cs.cache }) (fun _ => rfl) j

theorem parentOf_pushDtor (w : World) (i : Nat) (p : Pending) (j : Nat) :
    parentOf (pushDtor w i p) j = parentOf w j := by
  unfold pushDtor
  exact parentOf_modifyCS w i (fun cs => { cs with destructors := cs.destructors ++ [p] }) (fun _ => rfl) j

theorem factoriesOf_pushDtor (w : World) (i : Nat) (p : Pending) (j : Nat) :
    factoriesOf (pushDtor w i p) j = factoriesOf w j := by
  unfold pushDtor
  exact factoriesOf_modifyCS w i (fun cs => { cs with destructors := cs.destructors ++ [p] }) (fun _ => rfl) j

theorem cacheOf_pushDtor (w : World) (i : Nat) (p : Pending) (j : Nat) :
    cacheOf (pushDtor w i p) j = cacheOf w j := by
  unfold pushDtor
  exact cacheOf_modifyCS w i (fun cs => { cs with destructors := cs.destructors ++ [p] }) (fun _ => rfl) j

theorem lookupCache_pushDtor (w : World) (i : Nat) (p : Pending) (j φ : Nat) :
    lookupCache (pushDtor w i p) j φ = lookupCache w j φ := by
  unfold lookupCache
  rw [cacheOf_pushDtor]

/-! Root and chain walks only depend on the parent links, which no
resolution-time mutation ever touches. -/

theorem rootAux_congr {w w' : World} (h : ∀ j, parentOf w' j = parentOf w j) :
    ∀ (fuel c : Nat), rootAux w' fuel c = rootAux w fuel c := by
  intro fuel
  induction fuel with
  | zero => intro c; rfl
  | succ n ih =>
    intro c
    unfold rootAux
    rw [h c]
    cases parentOf w c with
    | none => rfl
    | some p => exact ih p

theorem rootOf_congr {w w' : World} (h : ∀ j, parentOf w' j = parentOf w j) (c : Nat) :
    rootOf w' c = rootOf w c :=
  rootAux_congr h c c

theorem chainAux_congr {w w' : World} (h : ∀ j, parentOf w' j = parentOf w j) :
    ∀ (fuel c : Nat), chainAux w' fuel c = chainAux w fuel c := by
  intro fuel
  induction fuel with
  | zero => intro c; rfl
  | succ n ih =>
    intro c
    unfold chainAux
    rw [h c]
    cases parentOf w c with
    | none => rfl
    | some p => exact congrArg (List.cons c) (ih p)

theorem chain_congr {w w' : World} (h : ∀ j, parentOf w' j = parentOf w j) (c : Nat) :
    chain w' c = chain w c :=
  chainAux_congr h c c

theorem chain_cons (w : World) (c : Nat) : ∃ t, chain w c = c :: t := by
  cases c with
  | zero => exact ⟨[], rfl⟩
  | succ k => exact ⟨_, rfl⟩

/-! Consequences of parent-link well-formation. -/

theorem WFw.parent_lt {w : World} (hwf : WFw w) {i p : Nat} (h : parentOf w i = some p) :
    p < i := by
  by_cases hr : i < w.containers.length
  · have := List.all_eq_true.mp hwf i (List.mem_range.mpr hr)
    rw [h] at this
    simpa using this
  · rw [parentOf, ctsOf_oob w (by omega)] at h
    simp [emptyCS] at h

theorem parentOf_some_lt_length {w : World} {i p : Nat} (h : parentOf w i = some p) :
    i < w.containers.length := by
  by_contra hr
  rw [parentOf, ctsOf_oob w (by omega)] at h
  simp [emptyCS] at h

theorem rootAux_lt_length {w : World} (hwf : WFw w) :
    ∀ (fuel c : Nat), c < w.containers.length → rootAux w fuel c < w.containers.length := by
  intro fuel
  induction fuel with
  | zero => intro c hc; exact hc
  | succ n ih =>
    intro c hc
    unfold rootAux
    cases hp : parentOf w c with
    | none => exact hc
    | some p => exact ih p (by have := hwf.parent_lt hp; omega)

theorem rootOf_lt_length {w : World} (hwf : WFw w) {c : Nat} (hc : c < w.containers.length) :
    rootOf w c < w.containers.length :=
  rootAux_lt_length hwf c c hc

theorem chainAux_le {w : World} (hwf : WFw w) :
    ∀ (fuel c x : Nat), x ∈ chainAux w fuel c → x ≤ c := by
  intro fuel
  induction fuel with
  | zero =>
    intro c x hx
    simp [chainAux] at hx
    omega
  | succ n ih =>
    intro c x hx
    unfold chainAux at hx
    rcases List.mem_cons.mp hx with h | h
    · omega
    · cases hp : parentOf w c with
      | none => rw [hp] at h; simp at h
      | some p =>
        rw [hp] at h
        have := ih p x h
        have := hwf.parent_lt hp
        omega

theorem chainAux_pairwise {w : World} (hwf : WFw w) :
    ∀ (fuel c : Nat), (chainAux w fuel c).Pairwise (fun a b => b < a) := by
  intro fuel
  induction fuel with
  | zero => intro c; simp [chainAux]
  | succ n ih =>
    intro c
    unfold chainAux
    refine List.pairwise_cons.mpr ⟨?_, ?_⟩
    · intro x hx
      cases hp : parentOf w c with
      | none => rw [hp] at hx; simp at hx
      | some p =>
        rw [hp] at hx
        have := chainAux_le hwf n p x hx
        have := hwf.parent_lt hp
        omega
    · cases hp : parentOf w c with
      | none => simp
      | some p => exact ih p

theorem chain_nodup {w : World} (hwf : WFw w) (c : Nat) : (chain w c).Nodup :=
  (chainAux_pairwise hwf c c).imp fun h => by omega

theorem chain_le {w : World} (hwf : WFw w) {c x : Nat} (hx : x ∈ chain w c) : x ≤ c :=
  chainAux_le hwf c c x hx

/-! Lemmas about factory search and collection. -/

theorem findLast_eq_none {tags : List String} :
    ∀ {fs : List Factory}, (∀ g ∈ fs, g.tag ∉ tags) → findLast tags fs = none := by
  intro fs
  induction fs with
  | nil => intro _; rfl
  | cons f rest ih =>
    intro h
    unfold findLast
    rw [ih fun g hg => h g (List.mem_cons_of_mem f hg)]
    simp [h f (List.mem_cons_self f rest)]

theorem findLast_mem {tags : List String} :
    ∀ {fs : List Factory} {f : Factory},
      findLast tags fs = some f → f ∈ fs ∧ f.tag ∈ tags := by
  intro fs
  induction fs with
  | nil => intro f h; simp [findLast] at h
  | cons g rest ih =>
    intro f h
    unfold findLast at h
    cases hr : findLast tags rest with
    | some g2 =>
      rw [hr] at h
      obtain rfl := Option.some.inj h
      rcases ih hr with ⟨h1, h2⟩
      exact ⟨List.mem_cons_of_mem _ h1, h2⟩
    | none =>
      rw [hr] at h
      by_cases hm : g.tag ∈ tags
      · rw [if_pos hm] at h
        obtain rfl := Option.some.inj h
        exact ⟨List.mem_cons_self _ _, hm⟩
      · rw [if_neg hm] at h
        simp at h

theorem findLast_append (tags : List String) :
    ∀ (l1 l2 : List Factory),
      findLast tags (l1 ++ l2) =
        (match findLast tags l2 with
         | some g => some g
         | none => findLast tags l1) := by
  intro l1
  induction l1 with
  | nil =>
    intro l2
    cases h : findLast tags l2 with
    | some g => simp [h]
    | none => simp [h, findLast]
  | cons f l1 ih =>
    intro l2
    show (match findLast tags (l1 ++ l2) with
          | some g => some g
          | none => if f.tag ∈ tags then some f else none) = _
    rw [ih l2]
    cases h : findLast tags l2 with
    | some g => rfl
    | none => rfl

theorem searchChain_eq_none {w : World} {tags : List String} :
    ∀ {L : List Nat}, (∀ i ∈ L, ∀ g ∈ factoriesOf w i, g.tag ∉ tags) →
      searchChain w tags L = none := by
  intro L
  induction L with
  | nil => intro _; rfl
  | cons i rest ih =>
    intro h
    unfold searchChain
    rw [findLast_eq_none (h i (List.mem_cons_self i rest))]
    exact ih fun j hj => h j (List.mem_cons_of_mem i hj)

theorem searchChain_mem {w : World} {tags : List String} :
    ∀ {L : List Nat} {f : Factory}, searchChain w tags L = some f →
      ∃ i ∈ L, f ∈ factoriesOf w i ∧ f.tag ∈ tags := by
  intro L
  induction L with
  | nil => intro f h; simp [searchChain] at h
  | cons i rest ih =>
    intro f h
    unfold searchChain at h
    cases hr : findLast tags (factoriesOf w i) with
    | some g =>
      rw [hr] at h
      obtain rfl := Option.some.inj h
      rcases findLast_mem hr with ⟨h1, h2⟩
      exact ⟨i, List.mem_cons_self i rest, h1, h2⟩
    | none =>
      rw [hr] at h
      rcases ih h with ⟨j, hj, h1, h2⟩
      exact ⟨j, List.mem_cons_of_mem i hj, h1, h2⟩

theorem matchesRev_eq_nil {tags : List String} :
    ∀ {fs : List Factory}, (∀ g ∈ fs, g.tag ∉ tags) → matchesRev tags fs = [] := by
  intro fs
  induction fs with
  | nil => intro _; rfl
  | cons f rest ih =>
    intro h
    unfold matchesRev
    rw [ih fun g hg => h g (List.mem_cons_of_mem f hg)]
    simp [h f (List.mem_cons_self f rest)]

theorem matchesRev_append (tags : List String) :
    ∀ (l1 l2 : List Factory),
      matchesRev tags (l1 ++ l2) = matchesRev tags l2 ++ matchesRev tags l1 := by
  intro l1
  induction l1 with
  | nil => intro l2; simp [matchesRev]
  | cons f l1 ih =>
    intro l2
    show matchesRev tags (l1 ++ l2) ++ _ = _
    rw [ih l2, List.append_assoc]
    rfl

/-! Lemmas about the registration operations. -/

theorem ctsOf_setNextFid (w : World) (n i : Nat) :
    ctsOf { w with nextFid := n } i = ctsOf w i := rfl

theorem factoriesOf_useFactoryOp_self (w : World) {c : Nat} (tag : String) (s : CtorSpec)
    (d : Option DtorSpec) (lt : Lifetime) (h : c < w.containers.length) :
    factoriesOf (useFactoryOp w c tag s d lt) c
      = factoriesOf w c ++ [⟨w.nextFid, tag, lt, s, d⟩] := by
  show (ctsOf (modifyCS w c _) c).factories = _
  rw [ctsOf_modifyCS]
  simp [h, factoriesOf]

theorem factoriesOf_useFactoryOp_ne (w : World) {c j : Nat} (tag : String) (s : CtorSpec)
    (d : Option DtorSpec) (lt : Lifetime) (h : j ≠ c) :
    factoriesOf (useFactoryOp w c tag s d lt) j = factoriesOf w j := by
  show (ctsOf (modifyCS w c _) j).factories = _
  rw [ctsOf_modifyCS]
  simp [h, factoriesOf]

theorem parentOf_useFactoryOp (w : World) (c : Nat) (tag : String) (s : CtorSpec)
    (d : Option DtorSpec) (lt : Lifetime) (j : Nat) :
    parentOf (useFactoryOp w c tag s d lt) j = parentOf w j := by
  show (ctsOf (modifyCS w c _) j).parent = _
  rw [ctsOf_modifyCS]
  split <;> rfl

theorem aliasesOf_useFactoryOp (w : World) (c : Nat) (tag : String) (s : CtorSpec)
    (d : Option DtorSpec) (lt : Lifetime) (j : Nat) :
    aliasesOf (useFactoryOp w c tag s d lt) j = aliasesOf w j := by
  show (ctsOf (modifyCS w c _) j).aliases = _
  rw [ctsOf_modifyCS]
  split <;> rfl

theorem cacheOf_useFactoryOp (w : World) (c : Nat) (tag : String) (s : CtorSpec)
    (d : Option DtorSpec) (lt : Lifetime) (j : Nat) :
    cacheOf (useFactoryOp w c tag s d lt) j = cacheOf w j := by
  show (ctsOf (modifyCS w c _) j).cache = _
  rw [ctsOf_modifyCS]
  split <;> rfl

theorem destructorsOf_useFactoryOp (w : World) (c : Nat) (tag : String) (s : CtorSpec)
    (d : Option DtorSpec) (lt : Lifetime) (j : Nat) :
    destructorsOf (useFactoryOp w c tag s d lt) j = destructorsOf w j := by
  show (ctsOf (modifyCS w c _) j).destructors = _
  rw [ctsOf_modifyCS]
  split <;> rfl

theorem containers_length_useFactoryOp (w : World) (c : Nat) (tag : String) (s : CtorSpec)
    (d : Option DtorSpec) (lt : Lifetime) :
    (useFactoryOp w c tag s d lt).containers.length = w.containers.length :=
  modifyNth_length _ c w.containers

/-! Registered factories and distinct identities. -/

theorem mem_flat_of_getD :
    ∀ (l : List ContainerState) (i : Nat) {g : Factory},
      g ∈ (l.getD i emptyCS).factories → g ∈ l.flatMap fun cs => cs.factories := by
  intro l
  induction l with
  | nil =>
    intro i g h
    cases i <;> simp [emptyCS] at h
  | cons a l ih =>
    intro i g h
    cases i with
    | zero => simpa using Or.inl h
    | succ i => simpa using Or.inr (ih i h)

theorem getD_of_mem_flat :
    ∀ {l : List ContainerState} {g : Factory},
      g ∈ l.flatMap (fun cs => cs.factories) → ∃ i, g ∈ (l.getD i emptyCS).factories := by
  intro l
  induction l with
  | nil => intro g h; simp at h
  | cons a l ih =>
    intro g h
    rcases (by simpa using h : g ∈ a.factories ∨ ∃ cs ∈ l, g ∈ cs.factories) with h | h
    · exact ⟨0, h⟩
    · obtain ⟨cs, hcs, hg⟩ := h
      rcases ih (List.mem_flatMap.mpr ⟨cs, hcs, hg⟩) with ⟨i, hi⟩
      exact ⟨i + 1, hi⟩

theorem facIn_iff_mem_allFacs {w : World} {g : Factory} : FacIn w g ↔ g ∈ allFacs w := by
  constructor
  · rintro ⟨i, hi⟩
    exact mem_flat_of_getD w.containers i hi
  · intro h
    exact getD_of_mem_flat h

theorem fid_inj {w : World} (hdis : FidsDistinct w) {g f : Factory}
    (hg : FacIn w g) (hf : FacIn w f) (h : g.fid = f.fid) : g = f :=
  List.inj_on_of_nodup_map hdis (facIn_iff_mem_allFacs.mp hg) (facIn_iff_mem_allFacs.mp hf) h

theorem facIn_congr {w w' : World} (h : ∀ i, factoriesOf w' i = factoriesOf w i)
    (g : Factory) : FacIn w' g ↔ FacIn w g := by
  unfold FacIn
  constructor
  · rintro ⟨i, hi⟩
    rw [h i] at hi
    exact ⟨i, hi⟩
  · rintro ⟨i, hi⟩
    rw [← h i] at hi
    exact ⟨i, hi⟩

/-! Frame property of the evaluator: evaluation starting at container `c`
never changes parent links or factory lists, and every cache write it makes
is keyed by the identity of a Scoped factory stored at `c` itself, or of a
Singleton factory stored at the root of `c` (container.go lines 301-310). -/

/-- A legitimate cache-write target during evaluation at `c`. -/
def WT (w : World) (c : Nat) (F : Factory → Prop) (i fid : Nat) : Prop :=
  ∃ g, F g ∧ fid = g.fid ∧
    ((g.lifetime = .Scoped ∧ i = c) ∨ (g.lifetime = .Singleton ∧ i = rootOf w c))

structure FrameP (c : Nat) (F : Factory → Prop) (w w' : World) : Prop where
  len : w'.containers.length = w.containers.length
  parent : ∀ i, parentOf w' i = parentOf w i
  facs : ∀ i, factoriesOf w' i = factoriesOf w i
  cache : ∀ i fid, lookupCache w' i fid = lookupCache w i fid ∨ WT w c F i fid

theorem FrameP.refl (c : Nat) (F : Factory → Prop) (w : World) : FrameP c F w w :=
  ⟨rfl, fun _ => rfl, fun _ => rfl, fun _ _ => Or.inl rfl⟩

theorem FrameP.mono {c : Nat} {F G : Factory → Prop} {w w' : World}
    (hFG : ∀ g, F g → G g) (h : FrameP c F w w') : FrameP c G w w' := by
  refine ⟨h.len, h.parent, h.facs, ?_⟩
  intro i fid
  rcases h.cache i fid with hc | ⟨g, hF, hfid, hcase⟩
  · exact Or.inl hc
  · exact Or.inr ⟨g, hFG g hF, hfid, hcase⟩

theorem FrameP.trans {c : Nat} {F : Factory → Prop} {w w1 w2 : World}
    (h1 : FrameP c F w w1) (h2 : FrameP c F w1 w2) : FrameP c F w w2 := by
  refine ⟨h2.len.trans h1.len, fun i => (h2.parent i).trans (h1.parent i),
    fun i => (h2.facs i).trans (h1.facs i), ?_⟩
  intro i fid
  rcases h2.cache i fid with hc | ⟨g, hF, hfid, hcase⟩
  · rcases h1.cache i fid with hc' | hwt
    · exact Or.inl (hc.trans hc')
    · exact Or.inr hwt
  · refine Or.inr ⟨g, hF, hfid, ?_⟩
    rcases hcase with ⟨hs, hi⟩ | ⟨hs, hi⟩
    · exact Or.inl ⟨hs, hi⟩
    · exact Or.inr ⟨hs, hi.trans (rootOf_congr h1.parent c)⟩

theorem FrameP.of_containers_eq {w w' : World} (h : w'.containers = w.containers)
    (c : Nat) (F : Factory → Prop) : FrameP c F w w' := by
  have hcts : ∀ i, ctsOf w' i = ctsOf w i := fun i => by unfold ctsOf; rw [h]
  refine ⟨by rw [h], fun i => ?_, fun i => ?_, fun i fid => Or.inl ?_⟩
  · unfold parentOf; rw [hcts i]
  · unfold factoriesOf; rw [hcts i]
  · unfold lookupCache cacheOf; rw [hcts i]

theorem frame_pushDtor (c : Nat) (F : Factory → Prop) (w : World) (i : Nat) (p : Pending) :
    FrameP c F w (pushDtor w i p) :=
  ⟨modifyNth_length _ i w.containers, parentOf_pushDtor w i p, factoriesOf_pushDtor w i p,
   fun j φ => Or.inl (lookupCache_pushDtor w i p j φ)⟩

theorem frame_store {c : Nat} {F : Factory → Prop} {w : World} {f : Factory} (hF : F f)
    (v : Value) {i : Nat}
    (hi : (f.lifetime = .Scoped ∧ i = c) ∨ (f.lifetime = .Singleton ∧ i = rootOf w c)) :
    FrameP c F w (cacheStore w i f.fid v) := by
  refine ⟨modifyNth_length _ i w.containers, parentOf_cacheStore w i f.fid v,
    factoriesOf_cacheStore w i f.fid v, ?_⟩
  intro j φ
  by_cases hj : j = i ∧ φ = f.fid
  · refine Or.inr ⟨f, hF, hj.2, ?_⟩
    rcases hi with ⟨h1, h2⟩ | ⟨h1, h2⟩
    · exact Or.inl ⟨h1, hj.1.trans h2⟩
    · exact Or.inr ⟨h1, hj.1.trans h2⟩
  · refine Or.inl (lookupCache_cacheStore_ne w v ?_)
    by_cases h1 : j = i
    · exact Or.inr fun h2 => hj ⟨h1, h2⟩
    · exact Or.inl h1

theorem frame_storeStep {c : Nat} {F : Factory → Prop} {w : World} {f : Factory} (hF : F f)
    (inst : Value) {r : Nat} (hr : r = rootOf w c) :
    FrameP c F w (storeStep w c r f inst) := by
  unfold storeStep
  split
  · exact FrameP.refl c F w
  · next hlt => exact frame_store hF inst (Or.inl ⟨hlt, rfl⟩)
  · next hlt => exact frame_store hF inst (Or.inr ⟨hlt, hr⟩)

theorem frame_dtorStep (c : Nat) (F : Factory → Prop) (w : World) (r : Nat)
    (f : Factory) (inst : Value) : FrameP c F w (dtorStep w c r f inst) := by
  unfold dtorStep
  split
  · exact FrameP.refl c F w
  · split <;> exact frame_pushDtor _ _ _ _ _

theorem evalFrame :
    ∀ fuel : Nat,
      (∀ w c tag, FrameP c (FacIn w) w (resolveFuel fuel w c tag).1) ∧
      (∀ w c f, FrameP c (fun g => g = f ∨ FacIn w g) w (createFuel fuel w c f).1) ∧
      (∀ w c s, FrameP c (FacIn w) w (runCtorFuel fuel w c s).1) ∧
      (∀ w c fields, FrameP c (FacIn w) w (injectFieldsFuel fuel w c fields).1) := by
  intro fuel
  induction fuel with
  | zero =>
    exact ⟨fun w c _ => FrameP.refl c _ w, fun w c _ => FrameP.refl c _ w,
      fun w c _ => FrameP.refl c _ w, fun w c _ => FrameP.refl c _ w⟩
  | succ n ih =>
    obtain ⟨ihr, ihc, iht, ihi⟩ := ih
    refine ⟨?_, ?_, ?_, ?_⟩
    · intro w c tag
      show FrameP c (FacIn w) w
        (match findFactory w c (resolveAliases w c tag) with
         | some f => createFuel n w c f
         | none => (w, Except.error errNoMatchingTag)).1
      cases hff : findFactory w c (resolveAliases w c tag) with
      | some f =>
        have hfin : FacIn w f := by
          rcases searchChain_mem hff with ⟨i, _, hmem, _⟩
          exact ⟨i, hmem⟩
        exact (ihc w c f).mono fun g hg => hg.elim (fun e => e ▸ hfin) id
      | none => exact FrameP.refl c _ w
    · intro w c f
      show FrameP c (fun g => g = f ∨ FacIn w g) w
        (match cacheProbe w c (rootOf w c) f with
         | some cached => (w, Except.ok cached)
         | none =>
           match runCtorFuel n w c f.ctor with
           | (w1, Except.error e) => (w1, Except.error e)
           | (w1, Except.ok inst) =>
             (dtorStep (storeStep w1 c (rootOf w c) f inst) c (rootOf w c) f inst,
              Except.ok inst)).1
      cases hpr : cacheProbe w c (rootOf w c) f with
      | some cached => exact FrameP.refl c _ w
      | none =>
        rcases hct : runCtorFuel n w c f.ctor with ⟨w1, r⟩
        have h1 : FrameP c (fun g => g = f ∨ FacIn w g) w w1 := by
          have hmono : ∀ g, FacIn w g → (g = f ∨ FacIn w g) := fun g hg => Or.inr hg
          have := FrameP.mono hmono (iht w c f.ctor)
          rwa [hct] at this
        cases r with
        | error e => exact h1
        | ok inst =>
          have hroot1 : rootOf w c = rootOf w1 c := (rootOf_congr h1.parent c).symm
          have h2 : FrameP c (fun g => g = f ∨ FacIn w g) w1
              (storeStep w1 c (rootOf w c) f inst) :=
            frame_storeStep (Or.inl rfl) inst hroot1
          have h3 := frame_dtorStep c (fun g => g = f ∨ FacIn w g)
            (storeStep w1 c (rootOf w c) f inst) (rootOf w c) f inst
          exact h1.trans (h2.trans h3)
    · intro w c s
      cases s with
      | value v => exact FrameP.refl c _ w
      | fail e => exact FrameP.refl c _ w
      | fresh =>
        have h : ((runCtorFuel (n+1) w c .fresh).1).containers = w.containers := rfl
        exact FrameP.of_containers_eq h c _
      | typeStruct fields =>
        exact ihi w c (fields.map fun p => (p.1, p.2, Value.unit))
    · intro w c fields
      cases fields with
      | nil => exact FrameP.refl c _ w
      | cons hd rest =>
        obtain ⟨nm, otg, v⟩ := hd
        cases otg with
        | none => exact ihi w c rest
        | some tg =>
          show FrameP c (FacIn w) w
            (match resolveFuel n w c tg with
             | (w1, Except.error e) => (w1, (nm, some tg, v) :: rest, some e)
             | (w1, Except.ok rv) =>
               let r := injectFieldsFuel n w1 c rest
               (r.1, (nm, some tg, rv) :: r.2.1, r.2.2)).1
          rcases hres : resolveFuel n w c tg with ⟨w1, r⟩
          have h1 : FrameP c (FacIn w) w w1 := by
            have := ihr w c tg
            rwa [hres] at this
          cases r with
          | error e => exact h1
          | ok rv =>
            have h2 : FrameP c (FacIn w) w1 (injectFieldsFuel n w1 c rest).1 :=
              (ihi w1 c rest).mono fun g hg => (facIn_congr h1.facs g).mp hg
            exact h1.trans h2

/-! Unfolding equations and small step lemmas used by the claim theorems. -/

theorem resolveFuel_succ (fuel : Nat) (w : World) (c : Nat) (tag : String) :
    resolveFuel (fuel+1) w c tag =
      match findFactory w c (resolveAliases w c tag) with
      | some f => createFuel fuel w c f
      | none => (w, Except.error errNoMatchingTag) := rfl

theorem createFuel_succ (fuel : Nat) (w : World) (c : Nat) (f : Factory) :
    createFuel (fuel+1) w c f =
      match cacheProbe w c (rootOf w c) f with
      | some cached => (w, Except.ok cached)
      | none =>
        match runCtorFuel fuel w c f.ctor with
        | (w1, Except.error e) => (w1, Except.error e)
        | (w1, Except.ok inst) =>
          (dtorStep (storeStep w1 c (rootOf w c) f inst) c (rootOf w c) f inst,
           Except.ok inst) := rfl

theorem runCtorFuel_value (fuel : Nat) (w : World) (c : Nat) (v : Value) :
    runCtorFuel (fuel+1) w c (CtorSpec.value v) = (w, Except.ok v) := rfl

theorem runCtorFuel_fail (fuel : Nat) (w : World) (c : Nat) (e : String) :
    runCtorFuel (fuel+1) w c (CtorSpec.fail e) = (w, Except.error e) := rfl

theorem runCtorFuel_fresh (fuel : Nat) (w : World) (c : Nat) :
    runCtorFuel (fuel+1) w c CtorSpec.fresh =
      ({ w with nextAlloc := w.nextAlloc + 1 }, Except.ok (Value.obj w.nextAlloc)) := rfl

theorem containers_length_cacheStore (w : World) (i fid : Nat) (v : Value) :
    (cacheStore w i fid v).containers.length = w.containers.length :=
  modifyNth_length _ i w.containers

theorem containers_length_pushDtor (w : World) (i : Nat) (p : Pending) :
    (pushDtor w i p).containers.length = w.containers.length :=
  modifyNth_length _ i w.containers

theorem destructorsOf_pushDtor_self (w : World) {i : Nat} (p : Pending)
    (h : i < w.containers.length) :
    destructorsOf (pushDtor w i p) i = destructorsOf w i ++ [p] := by
  unfold pushDtor destructorsOf
  rw [ctsOf_modifyCS]
  simp [h]

theorem destructorsOf_pushDtor_ne (w : World) {i j : Nat} (p : Pending) (h : j ≠ i) :
    destructorsOf (pushDtor w i p) j = destructorsOf w j := by
  unfold pushDtor destructorsOf
  rw [ctsOf_modifyCS]
  simp [h]

theorem destructorsOf_cacheStore (w : World) (i fid : Nat) (v : Value) (j : Nat) :
    destructorsOf (cacheStore w i fid v) j = destructorsOf w j := by
  unfold cacheStore
  exact destructorsOf_modifyCS w i (fun cs => { cs with cache := (fid, v) :: cs.cache })
    (fun _ => rfl) j

theorem lookupCache_dtorStep (w : World) (c r : Nat) (f : Factory) (inst : Value)
    (i φ : Nat) : lookupCache (dtorStep w c r f inst) i φ = lookupCache w i φ := by
  unfold dtorStep
  split
  · rfl
  · split <;> exact lookupCache_pushDtor _ _ _ _ _

theorem parentOf_dtorStep (w : World) (c r : Nat) (f : Factory) (inst : Value) (j : Nat) :
    parentOf (dtorStep w c r f inst) j = parentOf w j := by
  unfold dtorStep
  split
  · rfl
  · split <;> exact parentOf_pushDtor _ _ _ _

theorem parentOf_storeStep (w : World) (c r : Nat) (f : Factory) (inst : Value) (j : Nat) :
    parentOf (storeStep w c r f inst) j = parentOf w j := by
  unfold storeStep
  split
  · rfl
  · exact parentOf_cacheStore _ _ _ _ _
  · exact parentOf_cacheStore _ _ _ _ _

theorem containers_length_storeStep (w : World) (c r : Nat) (f : Factory) (inst : Value) :
    (storeStep w c r f inst).containers.length = w.containers.length := by
  unfold storeStep
  split
  · rfl
  · exact containers_length_cacheStore _ _ _ _
  · exact containers_length_cacheStore _ _ _ _

/-! Lemmas about the teardown loop. -/

theorem runDtors_all_ok :
    ∀ {l : List Pending}, (∀ d ∈ l, d.spec = DtorSpec.ok) → runDtors l = (l, Except.ok ()) := by
  intro l
  induction l with
  | nil => intro _; rfl
  | cons d rest ih =>
    intro h
    unfold runDtors
    rw [h d (List.mem_cons_self d rest)]
    rw [ih fun x hx => h x (List.mem_cons_of_mem d hx)]

theorem runDtors_fail :
    ∀ (l1 : List Pending) (d : Pending) (l2 : List Pending) (e : String),
      (∀ x ∈ l1, x.spec = DtorSpec.ok) → d.spec = DtorSpec.fail e →
      runDtors (l1 ++ d :: l2) = (l1 ++ [d], Except.error e) := by
  intro l1
  induction l1 with
  | nil =>
    intro d l2 e _ hd
    show runDtors (d :: l2) = _
    unfold runDtors
    rw [hd]
    rfl
  | cons x l1 ih =>
    intro d l2 e h hd
    show runDtors (x :: (l1 ++ d :: l2)) = _
    unfold runDtors
    rw [h x (List.mem_cons_self x l1)]
    rw [ih d l2 e (fun y hy => h y (List.mem_cons_of_mem x hy)) hd]
    rfl

/-! Case lemmas for the cache probe, store and destructor-recording steps. -/

theorem cacheProbe_transient {f : Factory} (w : World) (c r : Nat)
    (h : f.lifetime = Lifetime.Transient) : cacheProbe w c r f = none := by
  unfold cacheProbe
  rw [h]

theorem cacheProbe_scoped {f : Factory} (w : World) (c r : Nat)
    (h : f.lifetime = Lifetime.Scoped) : cacheProbe w c r f = lookupCache w c f.fid := by
  unfold cacheProbe
  rw [h]

theorem cacheProbe_singleton {f : Factory} (w : World) (c r : Nat)
    (h : f.lifetime = Lifetime.Singleton) : cacheProbe w c r f = lookupCache w r f.fid := by
  unfold cacheProbe
  rw [h]

theorem storeStep_transient {f : Factory} (w : World) (c r : Nat) (inst : Value)
    (h : f.lifetime = Lifetime.Transient) : storeStep w c r f inst = w := by
  unfold storeStep
  rw [h]

theorem storeStep_scoped {f : Factory} (w : World) (c r : Nat) (inst : Value)
    (h : f.lifetime = Lifetime.Scoped) : storeStep w c r f inst = cacheStore w c f.fid inst := by
  unfold storeStep
  rw [h]

theorem storeStep_singleton {f : Factory} (w : World) (c r : Nat) (inst : Value)
    (h : f.lifetime = Lifetime.Singleton) :
    storeStep w c r f inst = cacheStore w r f.fid inst := by
  unfold storeStep
  rw [h]

theorem dtorStep_none {f : Factory} (w : World) (c r : Nat) (inst : Value)
    (h : f.dtor = none) : dtorStep w c r f inst = w := by
  unfold dtorStep
  rw [h]

theorem dtorStep_some_transient {f : Factory} {d : DtorSpec} (w : World) (c r : Nat)
    (inst : Value) (hd : f.dtor = some d) (h : f.lifetime = Lifetime.Transient) :
    dtorStep w c r f inst = pushDtor w c ⟨f.fid, inst, d⟩ := by
  unfold dtorStep
  rw [hd, h]

theorem dtorStep_some_scoped {f : Factory} {d : DtorSpec} (w : World) (c r : Nat)
    (inst : Value) (hd : f.dtor = some d) (h : f.lifetime = Lifetime.Scoped) :
    dtorStep w c r f inst = pushDtor w c ⟨f.fid, inst, d⟩ := by
  unfold dtorStep
  rw [hd, h]

theorem dtorStep_some_singleton {f : Factory} {d : DtorSpec} (w : World) (c r : Nat)
    (inst : Value) (hd : f.dtor = some d) (h : f.lifetime = Lifetime.Singleton) :
    dtorStep w c r f inst = pushDtor w r ⟨f.fid, inst, d⟩ := by
  unfold dtorStep
  rw [hd, h]

/-- C8.  `Inject` on any value that is not a record is a panic, not a
returned error value; on a record target `Inject` never panics (its error
return is reserved for field-resolution failures). -/
theorem C8_inject_nonrecord_panics (fuel : Nat) (w : World) (c : Nat) (v : Value)
    (h : ∀ fs, v ≠ Value.record fs) :
    injectValue fuel w c v = (w, InjectResult.panicked) ∧
    (∀ fs, (injectValue fuel w c (Value.record fs)).2 ≠ InjectResult.panicked) := by
  constructor
  · cases v with
    | record fs => exact absurd rfl (h fs)
    | unit => rfl
    | vnat n => rfl
    | vstr s => rfl
    | obj a => rfl
  · intro fs
    show (match injectFieldsFuel fuel w c fs with
          | (w1, fs1, some e) => (w1, InjectResult.err e (Value.record fs1))
          | (w1, fs1, none) => (w1, InjectResult.ok (Value.record fs1))).2 ≠ _
    rcases injectFieldsFuel fuel w c fs with ⟨w1, fs1, e⟩
    cases e <;> simp

/-- C8 witness. -/
theorem C8_inject_nonrecord_panics_witness :
    injectValue 3 World.init 0 (Value.vnat 7) = (World.init, InjectResult.panicked) ∧
    (∀ fs, (injectValue 3 World.init 0 (Value.record fs)).2 ≠ InjectResult.panicked) :=
  C8_inject_nonrecord_panics 3 World.init 0 (Value.vnat 7)
    (fun _ h => Value.noConfusion h)

/-- C10.  If the factory's constructor reports an error (and the cache had
no entry, so the constructor actually runs), `createInstance` returns that
error and the world is completely unchanged: no cache entry is stored on any
container and no teardown closure is appended to any pending-destructor
list. -/
theorem C10_ctor_error_atomic (fuel : Nat) (w : World) (c : Nat) (f : Factory) (e : String)
    (hctor : f.ctor = CtorSpec.fail e)
    (hmiss : cacheProbe w c (rootOf w c) f = none) :
    createFuel (fuel+2) w c f = (w, Except.error e) ∧
    (∀ i fid, lookupCache (createFuel (fuel+2) w c f).1 i fid = lookupCache w i fid) ∧
    (∀ i, destructorsOf (createFuel (fuel+2) w c f).1 i = destructorsOf w i) := by
  have key : createFuel (fuel+1+1) w c f = (w, Except.error e) := by
    rw [createFuel_succ, hmiss, hctor, runCtorFuel_fail]
  refine ⟨key, fun i fid => ?_, fun i => ?_⟩
  · rw [show createFuel (fuel+2) w c f = (w, Except.error e) from key]
  · rw [show createFuel (fuel+2) w c f = (w, Except.error e) from key]

/-- C10 witness. -/
theorem C10_ctor_error_atomic_witness :
    createFuel 5 World.init 0 ⟨0, "t", Lifetime.Scoped, CtorSpec.fail ("boom"), none⟩
      = (World.init, Except.error ("boom")) ∧
    (∀ i fid, lookupCache
        (createFuel 5 World.init 0
          ⟨0, "t", Lifetime.Scoped, CtorSpec.fail ("boom"), none⟩).1 i fid
      = lookupCache World.init i fid) ∧
    (∀ i, destructorsOf
        (createFuel 5 World.init 0
          ⟨0, "t", Lifetime.Scoped, CtorSpec.fail ("boom"), none⟩).1 i
      = destructorsOf World.init i) :=
  C10_ctor_error_atomic 3 World.init 0 ⟨0, "t", Lifetime.Scoped, CtorSpec.fail ("boom"), none⟩
    "boom" rfl rfl

/-- C5.  `Close` drains only the calling container's own pending-destructor
list (every other container is untouched and the list itself is left
empty), and runs the recorded closures in reverse order of registration;
when all succeed every closure is invoked in that order, and when one fails
the closures recorded before it (later in the reversed sequence) are not
invoked and its error is returned. -/
theorem C5_close_reverse_teardown (w : World) (c : Nat) (ds : List Pending)
    (hds : destructorsOf w c = ds) :
    (closeContainer w c).1 = modifyCS w c (fun cs => { cs with destructors := [] }) ∧
    destructorsOf (closeContainer w c).1 c = [] ∧
    (∀ i, i ≠ c → ctsOf (closeContainer w c).1 i = ctsOf w i) ∧
    (closeContainer w c).2 = (runDtors ds.reverse).2 ∧
    ((∀ d ∈ ds, d.spec = DtorSpec.ok) → runDtors ds.reverse = (ds.reverse, Except.ok ())) ∧
    (∀ l1 d l2 e, ds.reverse = l1 ++ d :: l2 → (∀ x ∈ l1, x.spec = DtorSpec.ok) →
      d.spec = DtorSpec.fail e →
      (closeContainer w c).2 = Except.error e ∧
      runDtors ds.reverse = (l1 ++ [d], Except.error e)) := by
  refine ⟨rfl, ?_, ?_, ?_, ?_, ?_⟩
  · show destructorsOf (modifyCS w c fun cs => { cs with destructors := [] }) c = []
    unfold destructorsOf
    rw [ctsOf_modifyCS]
    split
    · rfl
    · next hcon =>
      rw [ctsOf_oob w (by omega)]
      rfl
  · intro i hi
    show ctsOf (modifyCS w c fun cs => { cs with destructors := [] }) i = ctsOf w i
    rw [ctsOf_modifyCS]
    simp [hi]
  · show (runDtors (destructorsOf w c).reverse).2 = (runDtors ds.reverse).2
    rw [hds]
  · intro h
    exact runDtors_all_ok fun d hd => h d (List.mem_reverse.mp hd)
  · intro l1 d l2 e hsplit h1 hd
    have hrun : runDtors ds.reverse = (l1 ++ [d], Except.error e) := by
      rw [hsplit]
      exact runDtors_fail l1 d l2 e h1 hd
    refine ⟨?_, hrun⟩
    show (runDtors (destructorsOf w c).reverse).2 = Except.error e
    rw [hds, hrun]

/-- C6.  For a factory record carrying a destructor, a teardown closure
bound to the produced instance is recorded exactly when the constructor
actually ran: a cache hit returns the cached instance with the world
unchanged (nothing is recorded anywhere), while a miss followed by a
successful constructor call appends exactly one closure for this record to
the pending-destructor list of the container that owns the lifetime — the
calling container for Transient and Scoped records, the root container for
Singleton records. -/
theorem C6_dtor_recording (fuel : Nat) (w : World) (c : Nat) (f : Factory) (d : DtorSpec)
    (hdtor : f.dtor = some d) :
    (∀ v, f.lifetime = Lifetime.Scoped → lookupCache w c f.fid = some v →
      createFuel (fuel+1) w c f = (w, Except.ok v)) ∧
    (∀ v, f.lifetime = Lifetime.Singleton → lookupCache w (rootOf w c) f.fid = some v →
      createFuel (fuel+1) w c f = (w, Except.ok v)) ∧
    (∀ w1 inst, f.lifetime = Lifetime.Transient →
      runCtorFuel fuel w c f.ctor = (w1, Except.ok inst) →
      createFuel (fuel+1) w c f = (pushDtor w1 c ⟨f.fid, inst, d⟩, Except.ok inst) ∧
      (c < w.containers.length →
        destructorsOf (createFuel (fuel+1) w c f).1 c
          = destructorsOf w1 c ++ [⟨f.fid, inst, d⟩]) ∧
      (∀ i, i ≠ c →
        destructorsOf (createFuel (fuel+1) w c f).1 i = destructorsOf w1 i)) ∧
    (∀ w1 inst, f.lifetime = Lifetime.Scoped → lookupCache w c f.fid = none →
      runCtorFuel fuel w c f.ctor = (w1, Except.ok inst) →
      createFuel (fuel+1) w c f
        = (pushDtor (cacheStore w1 c f.fid inst) c ⟨f.fid, inst, d⟩, Except.ok inst) ∧
      (c < w.containers.length →
        destructorsOf (createFuel (fuel+1) w c f).1 c
          = destructorsOf w1 c ++ [⟨f.fid, inst, d⟩]) ∧
      (∀ i, i ≠ c →
        destructorsOf (createFuel (fuel+1) w c f).1 i = destructorsOf w1 i)) ∧
    (∀ w1 inst, f.lifetime = Lifetime.Singleton →
      lookupCache w (rootOf w c) f.fid = none →
      runCtorFuel fuel w c f.ctor = (w1, Except.ok inst) →
      createFuel (fuel+1) w c f
        = (pushDtor (cacheStore w1 (rootOf w c) f.fid inst) (rootOf w c)
            ⟨f.fid, inst, d⟩, Except.ok inst) ∧
      (rootOf w c < w.containers.length →
        destructorsOf (createFuel (fuel+1) w c f).1 (rootOf w c)
          = destructorsOf w1 (rootOf w c) ++ [⟨f.fid, inst, d⟩]) ∧
      (∀ i, i ≠ rootOf w c →
        destructorsOf (createFuel (fuel+1) w c f).1 i = destructorsOf w1 i)) := by
  refine ⟨?_, ?_, ?_, ?_, ?_⟩
  · intro v hlt hcv
    rw [createFuel_succ, cacheProbe_scoped w c (rootOf w c) hlt, hcv]
  · intro v hlt hcv
    rw [createFuel_succ, cacheProbe_singleton w c (rootOf w c) hlt, hcv]
  · intro w1 inst hlt hrun
    have hlen : w1.containers.length = w.containers.length := by
      have h := ((evalFrame fuel).2.2.1 w c f.ctor).len
      rw [hrun] at h
      exact h
    have heq : createFuel (fuel+1) w c f
        = (pushDtor w1 c ⟨f.fid, inst, d⟩, Except.ok inst) := by
      rw [createFuel_succ, cacheProbe_transient w c (rootOf w c) hlt, hrun]
      show (dtorStep (storeStep w1 c (rootOf w c) f inst) c (rootOf w c) f inst,
        Except.ok inst) = _
      rw [storeStep_transient w1 c (rootOf w c) inst hlt,
        dtorStep_some_transient w1 c (rootOf w c) inst hdtor hlt]
    refine ⟨heq, ?_, ?_⟩
    · intro hc
      rw [heq]
      exact destructorsOf_pushDtor_self w1 _ (by omega)
    · intro i hi
      rw [heq]
      exact destructorsOf_pushDtor_ne w1 _ hi
  · intro w1 inst hlt hmiss hrun
    have hlen : w1.containers.length = w.containers.length := by
      have h := ((evalFrame fuel).2.2.1 w c f.ctor).len
      rw [hrun] at h
      exact h
    have heq : createFuel (fuel+1) w c f
        = (pushDtor (cacheStore w1 c f.fid inst) c ⟨f.fid, inst, d⟩, Except.ok inst) := by
      rw [createFuel_succ, cacheProbe_scoped w c (rootOf w c) hlt, hmiss, hrun]
      show (dtorStep (storeStep w1 c (rootOf w c) f inst) c (rootOf w c) f inst,
        Except.ok inst) = _
      rw [storeStep_scoped w1 c (rootOf w c) inst hlt,
        dtorStep_some_scoped (cacheStore w1 c f.fid inst) c (rootOf w c) inst hdtor hlt]
    refine ⟨heq, ?_, ?_⟩
    · intro hc
      rw [heq]
      have hlt2 : c < (cacheStore w1 c f.fid inst).containers.length := by
        rw [containers_length_cacheStore]; omega
      have h1 := destructorsOf_pushDtor_self (cacheStore w1 c f.fid inst)
        (⟨f.fid, inst, d⟩ : Pending) hlt2
      rw [h1, destructorsOf_cacheStore]
    · intro i hi
      rw [heq]
      rw [destructorsOf_pushDtor_ne (cacheStore w1 c f.fid inst) _ hi,
        destructorsOf_cacheStore]
  · intro w1 inst hlt hmiss hrun
    have hlen : w1.containers.length = w.containers.length := by
      have h := ((evalFrame fuel).2.2.1 w c f.ctor).len
      rw [hrun] at h
      exact h
    have heq : createFuel (fuel+1) w c f
        = (pushDtor (cacheStore w1 (rootOf w c) f.fid inst) (rootOf w c)
            ⟨f.fid, inst, d⟩, Except.ok inst) := by
      rw [createFuel_succ, cacheProbe_singleton w c (rootOf w c) hlt, hmiss, hrun]
      show (dtorStep (storeStep w1 c (rootOf w c) f inst) c (rootOf w c) f inst,
        Except.ok inst) = _
      rw [storeStep_singleton w1 c (rootOf w c) inst hlt,
        dtorStep_some_singleton (cacheStore w1 (rootOf w c) f.fid inst) c (rootOf w c)
          inst hdtor hlt]
    refine ⟨heq, ?_, ?_⟩
    · intro hc
      rw [heq]
      have hlt2 : rootOf w c < (cacheStore w1 (rootOf w c) f.fid inst).containers.length := by
        rw [containers_length_cacheStore]; omega
      have h1 := destructorsOf_pushDtor_self (cacheStore w1 (rootOf w c) f.fid inst)
        (⟨f.fid, inst, d⟩ : Pending) hlt2
      rw [h1, destructorsOf_cacheStore]
    · intro i hi
      rw [heq]
      rw [destructorsOf_pushDtor_ne (cacheStore w1 (rootOf w c) f.fid inst) _ hi,
        destructorsOf_cacheStore]

/-- Scenario factory for the C6 witness: a Scoped factory with a
destructor. -/
def fC6 : Factory := ⟨0, "t", Lifetime.Scoped, CtorSpec.fresh, some DtorSpec.ok⟩

/-- C6 witness: resolving the Scoped factory on the (empty-cached) root
invokes the constructor and records the closure on the calling container. -/
theorem C6_dtor_recording_witness :
    createFuel 4 World.init 0 fC6
      = (pushDtor (cacheStore { World.init with nextAlloc := 1 } 0 0 (Value.obj 0)) 0
          ⟨0, Value.obj 0, DtorSpec.ok⟩, Except.ok (Value.obj 0)) :=
  ((C6_dtor_recording 3 World.init 0 fC6 DtorSpec.ok rfl).2.2.2.1
    { World.init with nextAlloc := 1 } (Value.obj 0) rfl rfl rfl).1

/-- C3.  A Scoped factory consults and populates the cache of the container
on which Resolve was called, keyed by the record's identity: the first
resolution on `c1` runs the constructor and caches the result on `c1`, a
repeated resolution on `c1` is a cache hit returning the same instance with
no state change, while a resolution on the sibling `c2` finds no cache
entry, runs the constructor again, and returns a different instance. -/
theorem C3_scoped_cache (w : World) (c1 c2 p : Nat) (f : Factory) (fuel fuel2 fuel3 : Nat)
    (hlt : f.lifetime = Lifetime.Scoped) (hctor : f.ctor = CtorSpec.fresh)
    (hdtor : f.dtor = none)
    (hc1 : c1 < w.containers.length)
    (hp1 : parentOf w c1 = some p) (hp2 : parentOf w c2 = some p)
    (hne : c2 ≠ c1)
    (hm1 : lookupCache w c1 f.fid = none) (hm2 : lookupCache w c2 f.fid = none) :
    ∃ w1 w2 : World,
      createFuel (fuel+2) w c1 f = (w1, Except.ok (Value.obj w.nextAlloc)) ∧
      lookupCache w1 c1 f.fid = some (Value.obj w.nextAlloc) ∧
      createFuel (fuel2+1) w1 c1 f = (w1, Except.ok (Value.obj w.nextAlloc)) ∧
      lookupCache w1 c2 f.fid = none ∧
      createFuel (fuel3+2) w1 c2 f = (w2, Except.ok (Value.obj w1.nextAlloc)) ∧
      w1.nextAlloc = w.nextAlloc + 1 ∧
      Value.obj w1.nextAlloc ≠ Value.obj w.nextAlloc := by
  set w1 : World :=
    cacheStore { w with nextAlloc := w.nextAlloc + 1 } c1 f.fid (Value.obj w.nextAlloc)
    with hw1def
  have e1 : createFuel (fuel+1+1) w c1 f = (w1, Except.ok (Value.obj w.nextAlloc)) := by
    rw [createFuel_succ, cacheProbe_scoped w c1 (rootOf w c1) hlt, hm1, hctor,
      runCtorFuel_fresh fuel w c1]
    show (dtorStep (storeStep { w with nextAlloc := w.nextAlloc + 1 } c1 (rootOf w c1) f
      (Value.obj w.nextAlloc)) c1 (rootOf w c1) f (Value.obj w.nextAlloc),
      Except.ok (Value.obj w.nextAlloc)) = _
    rw [storeStep_scoped _ c1 (rootOf w c1) _ hlt, dtorStep_none _ c1 (rootOf w c1) _ hdtor]
  have e2 : lookupCache w1 c1 f.fid = some (Value.obj w.nextAlloc) := by
    rw [hw1def]
    exact lookupCache_cacheStore_self { w with nextAlloc := w.nextAlloc + 1 } f.fid
      (Value.obj w.nextAlloc) hc1
  have e3 : createFuel (fuel2+1) w1 c1 f = (w1, Except.ok (Value.obj w.nextAlloc)) := by
    rw [createFuel_succ, cacheProbe_scoped w1 c1 (rootOf w1 c1) hlt, e2]
  have e4 : lookupCache w1 c2 f.fid = none := by
    rw [hw1def, lookupCache_cacheStore_ne _ _ (Or.inl hne)]
    exact hm2
  have e6 : w1.nextAlloc = w.nextAlloc + 1 := by rw [hw1def]; rfl
  have e5 : createFuel (fuel3+1+1) w1 c2 f
      = (cacheStore { w1 with nextAlloc := w1.nextAlloc + 1 } c2 f.fid
          (Value.obj w1.nextAlloc), Except.ok (Value.obj w1.nextAlloc)) := by
    rw [createFuel_succ, cacheProbe_scoped w1 c2 (rootOf w1 c2) hlt, e4, hctor,
      runCtorFuel_fresh fuel3 w1 c2]
    show (dtorStep (storeStep { w1 with nextAlloc := w1.nextAlloc + 1 } c2 (rootOf w1 c2) f
      (Value.obj w1.nextAlloc)) c2 (rootOf w1 c2) f (Value.obj w1.nextAlloc),
      Except.ok (Value.obj w1.nextAlloc)) = _
    rw [storeStep_scoped _ c2 (rootOf w1 c2) _ hlt, dtorStep_none _ c2 (rootOf w1 c2) _ hdtor]
  have e7 : Value.obj w1.nextAlloc ≠ Value.obj w.nextAlloc := by
    rw [e6]
    simp
  exact ⟨w1, _, e1, e2, e3, e4, e5, e6, e7⟩

/-! Lemmas about the alias worklist: the loop only ever appends, so the
starting tag stays a member of the result. -/

theorem expandTag_prefix (t : String) :
    ∀ (al : List AliasDecl) (tags : List String), ∃ e, expandTag t al tags = tags ++ e := by
  intro al
  induction al with
  | nil => intro tags; exact ⟨[], (List.append_nil tags).symm⟩
  | cons a rest ih =>
    intro tags
    unfold expandTag
    split
    · rcases ih (tags ++ [a.aliased]) with ⟨e, he⟩
      exact ⟨[a.aliased] ++ e, by rw [he, List.append_assoc]⟩
    · exact ih tags

theorem resolveAliasesAux_prefix (al : List AliasDecl) :
    ∀ (fuel i : Nat) (tags : List String), ∃ e, resolveAliasesAux al fuel i tags = tags ++ e := by
  intro fuel
  induction fuel with
  | zero => intro i tags; exact ⟨[], (List.append_nil tags).symm⟩
  | succ n ih =>
    intro i tags
    unfold resolveAliasesAux
    split
    · next h =>
      rcases expandTag_prefix tags[i] al tags with ⟨e1, he1⟩
      rcases ih (i+1) (expandTag tags[i] al tags) with ⟨e2, he2⟩
      exact ⟨e1 ++ e2, by rw [he2, he1, List.append_assoc]⟩
    · exact ⟨[], (List.append_nil tags).symm⟩

theorem mem_resolveAliases_self (w : World) (c : Nat) (t : String) :
    t ∈ resolveAliases w c t := by
  show t ∈ resolveAliasesAux (aliasesOfChain w c) ((aliasesOfChain w c).length + 1) 0 [t]
  rcases resolveAliasesAux_prefix (aliasesOfChain w c)
    ((aliasesOfChain w c).length + 1) 0 [t] with ⟨e, he⟩
  rw [he]
  exact List.mem_append_left _ (List.mem_singleton.mpr rfl)

theorem collectChain_append (w : World) (tags : List String) :
    ∀ (L1 L2 : List Nat),
      collectChain w tags (L1 ++ L2) = collectChain w tags L1 ++ collectChain w tags L2 := by
  intro L1
  induction L1 with
  | nil => intro L2; simp [collectChain]
  | cons i L1 ih =>
    intro L2
    show matchesRev tags (factoriesOf w i) ++ collectChain w tags (L1 ++ L2) = _
    rw [ih L2, ← List.append_assoc]
    rfl

/-- A Transient constant factory resolves to its captured value and leaves
the world unchanged. -/
theorem createFuel_value_transient (fuel : Nat) (w : World) (c : Nat) (fid : Nat)
    (tag : String) (v : Value) :
    createFuel (fuel+1+1) w c ⟨fid, tag, Lifetime.Transient, CtorSpec.value v, none⟩
      = (w, Except.ok v) := by
  rw [createFuel_succ, cacheProbe_transient w c (rootOf w c) rfl]
  show (match runCtorFuel (fuel+1) w c (CtorSpec.value v) with
        | (w1, Except.error e) => (w1, Except.error e)
        | (w1, Except.ok inst) =>
          (dtorStep (storeStep w1 c (rootOf w c)
              ⟨fid, tag, Lifetime.Transient, CtorSpec.value v, none⟩ inst)
            c (rootOf w c) ⟨fid, tag, Lifetime.Transient, CtorSpec.value v, none⟩ inst,
           Except.ok inst)) = _
  rw [runCtorFuel_value]
  show (dtorStep (storeStep w c (rootOf w c)
      ⟨fid, tag, Lifetime.Transient, CtorSpec.value v, none⟩ v)
    c (rootOf w c) ⟨fid, tag, Lifetime.Transient, CtorSpec.value v, none⟩ v,
    Except.ok v) = _
  rw [storeStep_transient _ _ _ _ rfl, dtorStep_none _ _ _ _ rfl]

theorem resolveAllLoop_cons (fuel : Nat) (c : Nat) (w : World) (f : Factory)
    (rest : List Factory) :
    resolveAllLoop fuel c w (f :: rest)
      = match createFuel fuel w c f with
        | (w1, Except.error e) => (w1, Except.error e)
        | (w1, Except.ok v) =>
          match resolveAllLoop fuel c w1 rest with
          | (w2, Except.error e) => (w2, Except.error e)
          | (w2, Except.ok vs) => (w2, Except.ok (v :: vs)) := rfl

/-! Development for C7: the alias worklist terminates (extra fuel does not
change its result) and computes exactly the set of tags transitively
reachable through the declared alias edges. -/

/-- Transitive reachability along alias edges declared in `al`, starting
from `t`. -/
inductive AliasReach (al : List AliasDecl) (t : String) : String → Prop where
  | refl : AliasReach al t t
  | step {u v : String} {a : AliasDecl} :
      AliasReach al t u → a ∈ al → a.tag = u → a.aliased = v → AliasReach al t v

theorem mem_expandTag_of_mem (u : String) :
    ∀ (al : List AliasDecl) (tags : List String) {s : String},
      s ∈ tags → s ∈ expandTag u al tags := by
  intro al
  induction al with
  | nil => intro tags s hs; exact hs
  | cons a rest ih =>
    intro tags s hs
    unfold expandTag
    split
    · exact ih (tags ++ [a.aliased]) (List.mem_append_left _ hs)
    · exact ih tags hs

theorem mem_expandTag_cases (u : String) :
    ∀ (al : List AliasDecl) (tags : List String) {s : String},
      s ∈ expandTag u al tags →
      s ∈ tags ∨ ∃ a ∈ al, a.tag = u ∧ a.aliased = s := by
  intro al
  induction al with
  | nil => intro tags s hs; exact Or.inl hs
  | cons a rest ih =>
    intro tags s hs
    unfold expandTag at hs
    split at hs
    · next hcond =>
      rcases ih (tags ++ [a.aliased]) hs with h | ⟨b, hb, hbt, hba⟩
      · rcases List.mem_append.mp h with h | h
        · exact Or.inl h
        · refine Or.inr ⟨a, List.mem_cons_self a rest, hcond.1.symm, ?_⟩
          exact (List.mem_singleton.mp h).symm
      · exact Or.inr ⟨b, List.mem_cons_of_mem a hb, hbt, hba⟩
    · rcases ih tags hs with h | ⟨b, hb, hbt, hba⟩
      · exact Or.inl h
      · exact Or.inr ⟨b, List.mem_cons_of_mem a hb, hbt, hba⟩

theorem edge_mem_expandTag (u : String) :
    ∀ (al : List AliasDecl) (tags : List String) {a : AliasDecl},
      a ∈ al → a.tag = u → a.aliased ∈ expandTag u al tags := by
  intro al
  induction al with
  | nil => intro tags a ha _; simp at ha
  | cons b rest ih =>
    intro tags a ha htg
    rcases List.mem_cons.mp ha with rfl | ha
    · unfold expandTag
      split
      · exact mem_expandTag_of_mem u rest _ (List.mem_append_right _ (List.mem_singleton.mpr rfl))
      · next hcond =>
        have hmem : a.aliased ∈ tags := by
          by_contra hno
          exact hcond ⟨htg.symm, hno⟩
        exact mem_expandTag_of_mem u rest tags hmem
    · unfold expandTag
      split
      · exact ih (tags ++ [b.aliased]) ha htg
      · exact ih tags ha htg

theorem nodup_expandTag (u : String) :
    ∀ (al : List AliasDecl) (tags : List String), tags.Nodup →
      (expandTag u al tags).Nodup := by
  intro al
  induction al with
  | nil => intro tags h; exact h
  | cons a rest ih =>
    intro tags h
    unfold expandTag
    split
    · next hcond =>
      refine ih _ (List.nodup_append.mpr ⟨h, List.nodup_singleton _, ?_⟩)
      intro x hx hx1
      exact hcond.2 ((List.mem_singleton.mp hx1) ▸ hx)
    · exact ih tags h

theorem nodup_subset_length {tags S : List String} (hnd : tags.Nodup) (hsub : tags ⊆ S) :
    tags.length ≤ S.length :=
  calc tags.length = tags.toFinset.card := (List.toFinset_card_of_nodup hnd).symm
    _ ≤ S.toFinset.card := Finset.card_le_card
        (fun x hx => List.mem_toFinset.mpr (hsub (List.mem_toFinset.mp hx)))
    _ ≤ S.length := S.toFinset_card_le

theorem resolveAliasesAux_succ (al : List AliasDecl) (fuel i : Nat) (tags : List String) :
    resolveAliasesAux al (fuel+1) i tags =
      if h : i < tags.length then
        resolveAliasesAux al fuel (i+1) (expandTag tags[i] al tags)
      else tags := rfl

theorem resolveAliasesAux_stop (al : List AliasDecl) :
    ∀ (fuel i : Nat) (tags : List String), tags.length ≤ i →
      resolveAliasesAux al fuel i tags = tags := by
  intro fuel i tags h
  cases fuel with
  | zero => rfl
  | succ n =>
    rw [resolveAliasesAux_succ, dif_neg (by omega)]

/-- One invariant-carrying pass over the worklist loop: starting from a
duplicate-free worklist drawn from the start tag and the declared aliased
tags, with the first `i` entries already expanded, the loop (given the
stated fuel) extends the worklist, stays sound for reachability, ends
closed under alias edges, and is unchanged by any extra fuel. -/
theorem resolveAliasesAux_invariant (al : List AliasDecl) (t0 : String) :
    ∀ (fuel i : Nat) (tags : List String),
      tags.Nodup →
      (∀ s ∈ tags, s = t0 ∨ ∃ a ∈ al, a.aliased = s) →
      (∀ s ∈ tags, AliasReach al t0 s) →
      (∀ u ∈ tags.take i, ∀ a ∈ al, a.tag = u → a.aliased ∈ tags) →
      al.length + 1 ≤ fuel + i →
      (∀ s ∈ tags, s ∈ resolveAliasesAux al fuel i tags) ∧
      (∀ s ∈ resolveAliasesAux al fuel i tags, AliasReach al t0 s) ∧
      (∀ u ∈ resolveAliasesAux al fuel i tags, ∀ a ∈ al, a.tag = u →
        a.aliased ∈ resolveAliasesAux al fuel i tags) ∧
      (∀ extra, resolveAliasesAux al (fuel + extra) i tags
        = resolveAliasesAux al fuel i tags) := by
  intro fuel
  induction fuel with
  | zero =>
    intro i tags hnd hsub hreach hdone hbound
    have hsub2 : tags ⊆ t0 :: al.map (fun a => a.aliased) := by
      intro s hs
      rcases hsub s hs with rfl | ⟨a, ha, haa⟩
      · exact List.mem_cons_self _ _
      · exact List.mem_cons_of_mem _ (List.mem_map.mpr ⟨a, ha, haa⟩)
    have hlen : tags.length ≤ i := by
      have := nodup_subset_length hnd hsub2
      simp at this
      omega
    have hstop : resolveAliasesAux al 0 i tags = tags := rfl
    rw [hstop]
    have htake : tags.take i = tags := List.take_of_length_le hlen
    refine ⟨fun s hs => hs, hreach, ?_, ?_⟩
    · intro u hu a ha htg
      exact hdone u (by rw [htake]; exact hu) a ha htg
    · intro extra
      rw [resolveAliasesAux_stop al _ _ _ hlen]
  | succ n ih =>
    intro i tags hnd hsub hreach hdone hbound
    by_cases hlt : i < tags.length
    · have hstep : resolveAliasesAux al (n+1) i tags
          = resolveAliasesAux al n (i+1) (expandTag tags[i] al tags) := by
        rw [resolveAliasesAux_succ, dif_pos hlt]
      have hmemi : tags[i] ∈ tags := List.getElem_mem hlt
      have hnd' : (expandTag tags[i] al tags).Nodup := nodup_expandTag _ al tags hnd
      have hsub' : ∀ s ∈ expandTag tags[i] al tags, s = t0 ∨ ∃ a ∈ al, a.aliased = s := by
        intro s hs
        rcases mem_expandTag_cases _ al tags hs with h | ⟨a, ha, _, haa⟩
        · exact hsub s h
        · exact Or.inr ⟨a, ha, haa⟩
      have hreach' : ∀ s ∈ expandTag tags[i] al tags, AliasReach al t0 s := by
        intro s hs
        rcases mem_expandTag_cases _ al tags hs with h | ⟨a, ha, hat, haa⟩
        · exact hreach s h
        · exact AliasReach.step (hreach _ hmemi) ha hat haa
      have hdone' : ∀ u ∈ (expandTag tags[i] al tags).take (i+1), ∀ a ∈ al,
          a.tag = u → a.aliased ∈ expandTag tags[i] al tags := by
        intro u hu a ha htg
        rcases expandTag_prefix tags[i] al tags with ⟨e, he⟩
        rw [he, List.take_append_of_le_length (by omega)] at hu
        rw [List.take_succ] at hu
        rcases List.mem_append.mp hu with h | h
        · exact mem_expandTag_of_mem _ al tags (hdone u h a ha htg)
        · have : u = tags[i] := by
            have hsome : tags[i]? = some tags[i] := List.getElem?_eq_getElem hlt
            rw [hsome] at h
            simpa using h
          exact edge_mem_expandTag _ al tags ha (htg.trans this)
      have hbound' : al.length + 1 ≤ n + (i+1) := by omega
      obtain ⟨k1, k2, k3, k4⟩ := ih (i+1) (expandTag tags[i] al tags)
        hnd' hsub' hreach' hdone' hbound'
      refine ⟨?_, ?_, ?_, ?_⟩
      · intro s hs
        rw [hstep]
        exact k1 s (mem_expandTag_of_mem _ al tags hs)
      · intro s hs
        rw [hstep] at hs
        exact k2 s hs
      · intro u hu a ha htg
        rw [hstep] at hu ⊢
        exact k3 u hu a ha htg
      · intro extra
        have hstep2 : resolveAliasesAux al (n+1+extra) i tags
            = resolveAliasesAux al (n+extra) (i+1) (expandTag tags[i] al tags) := by
          have hfe : n+1+extra = (n+extra)+1 := by omega
          rw [hfe, resolveAliasesAux_succ, dif_pos hlt]
        rw [hstep2, hstep, k4 extra]
    · have hlen : tags.length ≤ i := by omega
      have htake : tags.take i = tags := List.take_of_length_le hlen
      rw [resolveAliasesAux_stop al _ _ _ hlen]
      refine ⟨fun s hs => hs, hreach, ?_, ?_⟩
      · intro u hu a ha htg
        exact hdone u (by rw [htake]; exact hu) a ha htg
      · intro extra
        rw [resolveAliasesAux_stop al _ _ _ hlen]

/-- C7.  The alias-set computation terminates — running the worklist loop
with any amount of extra fuel beyond the `|aliases| + 1` iterations it is
given changes nothing, even when the alias declarations form a cycle,
because a tag already present is never appended again — and its result
contains exactly the tags transitively reachable from the starting tag
along the alias edges declared on the container and all its ancestors. -/
theorem C7_alias_termination (w : World) (c : Nat) (t : String) :
    (∀ extra, resolveAliasesAux (aliasesOfChain w c)
        ((aliasesOfChain w c).length + 1 + extra) 0 [t] = resolveAliases w c t) ∧
    (∀ s, s ∈ resolveAliases w c t ↔ AliasReach (aliasesOfChain w c) t s) := by
  have hbase := resolveAliasesAux_invariant (aliasesOfChain w c) t
    ((aliasesOfChain w c).length + 1) 0 [t]
    (List.nodup_singleton t)
    (fun s hs => Or.inl (List.mem_singleton.mp hs))
    (fun s hs => (List.mem_singleton.mp hs) ▸ AliasReach.refl)
    (by intro u hu; simp at hu)
    (by omega)
  obtain ⟨k1, k2, k3, k4⟩ := hbase
  constructor
  · intro extra
    exact k4 extra
  · intro s
    constructor
    · intro hs
      exact k2 s hs
    · intro hr
      induction hr with
      | refl => exact k1 t (List.mem_singleton.mpr rfl)
      | step hru ha hat haa ih2 => exact haa ▸ k3 _ ih2 _ ha hat

/-- The ResolveAll construction loop over Transient constant factories
returns their captured values in list order, leaving the world unchanged. -/
theorem resolveAllLoop_value_list (fuel c : Nat) :
    ∀ (fs : List (Nat × String × Value)) (w : World),
      resolveAllLoop (fuel+1+1) c w
          (fs.map fun q => ⟨q.1, q.2.1, Lifetime.Transient, CtorSpec.value q.2.2, none⟩)
        = (w, Except.ok (fs.map fun q => q.2.2)) := by
  intro fs
  induction fs with
  | nil => intro w; rfl
  | cons q fs ih =>
    intro w
    obtain ⟨qf, qt, qv⟩ := q
    rw [List.map_cons, resolveAllLoop_cons, createFuel_value_transient fuel w c qf qt qv]
    show (match resolveAllLoop (fuel+1+1) c w
            (fs.map fun q => ⟨q.1, q.2.1, Lifetime.Transient, CtorSpec.value q.2.2, none⟩) with
          | (w2, Except.error e) => (w2, Except.error e)
          | (w2, Except.ok vs) => (w2, Except.ok (qv :: vs))) = _
    rw [ih w]
    rfl

/-! No-match lemmas shared by the C1 and C9 theorems. -/

theorem resolve_noMatch {w : World} {c : Nat} {t : String} (fuel : Nat)
    (h : ∀ j ∈ chain w c, ∀ g ∈ factoriesOf w j, g.tag ∉ resolveAliases w c t) :
    resolveFuel (fuel+1) w c t = (w, Except.error errNoMatchingTag) := by
  rw [resolveFuel_succ]
  have hff : findFactory w c (resolveAliases w c t) = none := searchChain_eq_none h
  rw [hff]

theorem collectChain_eq_nil {w : World} {tags : List String} :
    ∀ {L : List Nat}, (∀ j ∈ L, ∀ g ∈ factoriesOf w j, g.tag ∉ tags) →
      collectChain w tags L = [] := by
  intro L
  induction L with
  | nil => intro _; rfl
  | cons i rest ih =>
    intro h
    unfold collectChain
    rw [matchesRev_eq_nil (h i (List.mem_cons_self i rest)),
      ih fun j hj => h j (List.mem_cons_of_mem i hj)]
    rfl

theorem resolveAll_noMatch {w : World} {c : Nat} {t : String} (fuel : Nat)
    (h : ∀ j ∈ chain w c, ∀ g ∈ factoriesOf w j, g.tag ∉ resolveAliases w c t) :
    resolveAllFuel fuel w c t = (w, Except.ok []) := by
  unfold resolveAllFuel collectFactories
  rw [collectChain_eq_nil h]
  rfl

theorem injectFieldsFuel_succ_untagged (fuel : Nat) (w : World) (c : Nat) (nm : String)
    (v : Value) (rest : List (String × Option String × Value)) :
    injectFieldsFuel (fuel+1) w c ((nm, none, v) :: rest)
      = ((injectFieldsFuel fuel w c rest).1,
         (nm, none, v) :: (injectFieldsFuel fuel w c rest).2.1,
         (injectFieldsFuel fuel w c rest).2.2) := rfl

theorem injectFieldsFuel_succ_tagged (fuel : Nat) (w : World) (c : Nat) (nm tg : String)
    (v : Value) (rest : List (String × Option String × Value)) :
    injectFieldsFuel (fuel+1) w c ((nm, some tg, v) :: rest)
      = match resolveFuel fuel w c tg with
        | (w1, Except.error e) => (w1, (nm, some tg, v) :: rest, some e)
        | (w1, Except.ok rv) =>
          ((injectFieldsFuel fuel w1 c rest).1,
           (nm, some tg, rv) :: (injectFieldsFuel fuel w1 c rest).2.1,
           (injectFieldsFuel fuel w1 c rest).2.2) := rfl

/-- Injecting a record whose first annotated field carries an unmatchable
tag stops at that field with `ErrNoMatchingTag`, touching neither the world
nor any field value. -/
theorem injectFields_noMatch :
    ∀ (fs1 : List (String × Option String × Value)) (fuel : Nat) (w : World) (c : Nat)
      (nm t : String) (v0 : Value) (fs2 : List (String × Option String × Value)),
      (∀ q ∈ fs1, q.2.1 = none) →
      (∀ j ∈ chain w c, ∀ g ∈ factoriesOf w j, g.tag ∉ resolveAliases w c t) →
      fs1.length + 2 ≤ fuel →
      injectFieldsFuel fuel w c (fs1 ++ (nm, some t, v0) :: fs2)
        = (w, fs1 ++ (nm, some t, v0) :: fs2, some errNoMatchingTag) := by
  intro fs1
  induction fs1 with
  | nil =>
    intro fuel w c nm t v0 fs2 _ hnm hfuel
    obtain ⟨k, rfl⟩ : ∃ k, fuel = k + 1 + 1 := ⟨fuel - 2, by omega⟩
    show injectFieldsFuel (k+1+1) w c ((nm, some t, v0) :: fs2) = _
    rw [injectFieldsFuel_succ_tagged, resolve_noMatch k hnm]
    rfl
  | cons q fs1 ih =>
    intro fuel w c nm t v0 fs2 huntag hnm hfuel
    obtain ⟨qn, qtag, qv⟩ := q
    have hq : qtag = none := huntag (qn, qtag, qv) (List.mem_cons_self _ _)
    subst hq
    obtain ⟨k, rfl⟩ : ∃ k, fuel = k + 1 := ⟨fuel - 1, by omega⟩
    show injectFieldsFuel (k+1) w c ((qn, none, qv) :: (fs1 ++ (nm, some t, v0) :: fs2)) = _
    rw [injectFieldsFuel_succ_untagged, ih k w c nm t v0 fs2
      (fun x hx => huntag x (List.mem_cons_of_mem _ hx)) hnm (by simp at hfuel ⊢; omega)]
    rfl

/-- C4.  With a record registered under tag `t` on an ancestor `p` and then
two records registered under `t` on the calling container `c` (and no other
match anywhere on the chain), `Resolve` returns the instance of the latest
registration on the calling container — later-in-order and
closer-to-the-caller registrations shadow earlier and ancestral ones —
while `ResolveAll` returns all three instances ordered
oldest-registered-in-the-ancestor first, latest-registered-on-the-calling-
container last. -/
theorem C4_shadowing (w : World) (c p : Nat) (t : String) (u v1 v2 : Value)
    (fuel fuel2 : Nat)
    (hwf : WFw w)
    (hc : c < w.containers.length)
    (hp : p ∈ chain w c) (hpc : p ≠ c)
    (hnm : ∀ j ∈ chain w c, ∀ g ∈ factoriesOf w j, g.tag ∉ resolveAliases w c t) :
    resolveFuel (fuel+1+1+1)
        (useValueOp (useValueOp (useValueOp w p t u) c t v1) c t v2) c t
      = (useValueOp (useValueOp (useValueOp w p t u) c t v1) c t v2, Except.ok v2) ∧
    resolveAllFuel (fuel2+1+1)
        (useValueOp (useValueOp (useValueOp w p t u) c t v1) c t v2) c t
      = (useValueOp (useValueOp (useValueOp w p t u) c t v1) c t v2,
         Except.ok [u, v1, v2]) := by
  have hplen : p < w.containers.length := lt_of_le_of_lt (chain_le hwf hp) hc
  set wA := useValueOp w p t u with hwA
  set wB := useValueOp wA c t v1 with hwB
  set w3 := useValueOp wB c t v2 with hw3
  simp only [useValueOp] at hwA hwB hw3
  have hlenA : wA.containers.length = w.containers.length := by
    rw [hwA]; exact containers_length_useFactoryOp w p t _ none _
  have hlenB : wB.containers.length = w.containers.length := by
    rw [hwB, containers_length_useFactoryOp]; exact hlenA
  have hpar3 : ∀ j, parentOf w3 j = parentOf w j := by
    intro j
    rw [hw3, parentOf_useFactoryOp, hwB, parentOf_useFactoryOp, hwA, parentOf_useFactoryOp]
  have hch : chain w3 c = chain w c := chain_congr hpar3 c
  have haof : aliasesOf w3 = aliasesOf w := by
    funext j
    rw [hw3, aliasesOf_useFactoryOp, hwB, aliasesOf_useFactoryOp, hwA, aliasesOf_useFactoryOp]
  have hral : resolveAliases w3 c t = resolveAliases w c t := by
    unfold resolveAliases aliasesOfChain
    rw [hch, haof]
  have htag : t ∈ resolveAliases w3 c t := mem_resolveAliases_self w3 c t
  have hfA_p : factoriesOf wA p
      = factoriesOf w p ++ [⟨w.nextFid, t, Lifetime.Transient, CtorSpec.value u, none⟩] := by
    rw [hwA]; exact factoriesOf_useFactoryOp_self w t _ none _ hplen
  have hfA_ne : ∀ j, j ≠ p → factoriesOf wA j = factoriesOf w j := by
    intro j hj
    rw [hwA]; exact factoriesOf_useFactoryOp_ne w t _ none _ hj
  have hfB_c : factoriesOf wB c
      = factoriesOf w c ++ [⟨wA.nextFid, t, Lifetime.Transient, CtorSpec.value v1, none⟩] := by
    rw [hwB, factoriesOf_useFactoryOp_self wA t _ none _ (by rw [hlenA]; exact hc),
      hfA_ne c (Ne.symm hpc)]
  have hfB_ne : ∀ j, j ≠ c → factoriesOf wB j = factoriesOf wA j := by
    intro j hj
    rw [hwB]; exact factoriesOf_useFactoryOp_ne wA t _ none _ hj
  have hf3_c : factoriesOf w3 c
      = (factoriesOf w c ++ [⟨wA.nextFid, t, Lifetime.Transient, CtorSpec.value v1, none⟩])
        ++ [⟨wB.nextFid, t, Lifetime.Transient, CtorSpec.value v2, none⟩] := by
    rw [hw3, factoriesOf_useFactoryOp_self wB t _ none _ (by rw [hlenB]; exact hc), hfB_c]
  have hf3_p : factoriesOf w3 p
      = factoriesOf w p ++ [⟨w.nextFid, t, Lifetime.Transient, CtorSpec.value u, none⟩] := by
    rw [hw3, factoriesOf_useFactoryOp_ne wB t _ none _ hpc, hfB_ne p hpc, hfA_p]
  have hf3_other : ∀ j, j ≠ c → j ≠ p → factoriesOf w3 j = factoriesOf w j := by
    intro j hjc hjp
    rw [hw3, factoriesOf_useFactoryOp_ne wB t _ none _ hjc, hfB_ne j hjc, hfA_ne j hjp]
  obtain ⟨rest, hrest⟩ := chain_cons w c
  have hcmem : c ∈ chain w c := by rw [hrest]; exact List.mem_cons_self c rest
  have hch3 : chain w3 c = c :: rest := by rw [hch, hrest]
  have hfind : findFactory w3 c (resolveAliases w3 c t)
      = some ⟨wB.nextFid, t, Lifetime.Transient, CtorSpec.value v2, none⟩ := by
    unfold findFactory searchChain
    rw [hch3]
    show (match findLast (resolveAliases w3 c t) (factoriesOf w3 c) with
          | some f => some f
          | none => searchChain w3 (resolveAliases w3 c t) rest) = _
    rw [hf3_c, findLast_append]
    have h2 : findLast (resolveAliases w3 c t)
        [⟨wB.nextFid, t, Lifetime.Transient, CtorSpec.value v2, none⟩]
        = some ⟨wB.nextFid, t, Lifetime.Transient, CtorSpec.value v2, none⟩ := by
      show (match (none : Option Factory) with
            | some g => some g
            | none => if (⟨wB.nextFid, t, Lifetime.Transient, CtorSpec.value v2, none⟩
                : Factory).tag ∈ resolveAliases w3 c t
              then some (⟨wB.nextFid, t, Lifetime.Transient, CtorSpec.value v2, none⟩
                : Factory) else none) = _
      rw [if_pos htag]
    rw [h2]
  have hres : resolveFuel (fuel+1+1+1) w3 c t = (w3, Except.ok v2) := by
    rw [resolveFuel_succ, hfind]
    show createFuel (fuel+1+1) w3 c
      ⟨wB.nextFid, t, Lifetime.Transient, CtorSpec.value v2, none⟩ = _
    exact createFuel_value_transient fuel w3 c wB.nextFid t v2
  have hpmem : p ∈ rest := by
    have hh := hp
    rw [hrest] at hh
    rcases List.mem_cons.mp hh with h | h
    · exact absurd h hpc
    · exact h
  obtain ⟨l1, l2, hrsplit⟩ := List.append_of_mem hpmem
  have hnd : (c :: (l1 ++ p :: l2)).Nodup := by
    have hh := chain_nodup hwf c
    rw [hrest, hrsplit] at hh
    exact hh
  have hcnotin : c ∉ l1 ++ p :: l2 := (List.nodup_cons.mp hnd).1
  obtain ⟨hndl1, hndpl2, hdisj⟩ := List.nodup_append.mp (List.nodup_cons.mp hnd).2
  have hpnotl1 : p ∉ l1 := fun hm => hdisj hm (List.mem_cons_self p l2)
  have hpnotl2 : p ∉ l2 := (List.nodup_cons.mp hndpl2).1
  have hm2 : matchesRev (resolveAliases w3 c t)
      [⟨wB.nextFid, t, Lifetime.Transient, CtorSpec.value v2, none⟩]
      = [⟨wB.nextFid, t, Lifetime.Transient, CtorSpec.value v2, none⟩] := by
    show matchesRev (resolveAliases w3 c t) []
        ++ (if (⟨wB.nextFid, t, Lifetime.Transient, CtorSpec.value v2, none⟩
            : Factory).tag ∈ resolveAliases w3 c t
          then [⟨wB.nextFid, t, Lifetime.Transient, CtorSpec.value v2, none⟩] else []) = _
    rw [if_pos htag]
    rfl
  have hm1 : matchesRev (resolveAliases w3 c t)
      [⟨wA.nextFid, t, Lifetime.Transient, CtorSpec.value v1, none⟩]
      = [⟨wA.nextFid, t, Lifetime.Transient, CtorSpec.value v1, none⟩] := by
    show matchesRev (resolveAliases w3 c t) []
        ++ (if (⟨wA.nextFid, t, Lifetime.Transient, CtorSpec.value v1, none⟩
            : Factory).tag ∈ resolveAliases w3 c t
          then [⟨wA.nextFid, t, Lifetime.Transient, CtorSpec.value v1, none⟩] else []) = _
    rw [if_pos htag]
    rfl
  have hmu : matchesRev (resolveAliases w3 c t)
      [⟨w.nextFid, t, Lifetime.Transient, CtorSpec.value u, none⟩]
      = [⟨w.nextFid, t, Lifetime.Transient, CtorSpec.value u, none⟩] := by
    show matchesRev (resolveAliases w3 c t) []
        ++ (if (⟨w.nextFid, t, Lifetime.Transient, CtorSpec.value u, none⟩
            : Factory).tag ∈ resolveAliases w3 c t
          then [⟨w.nextFid, t, Lifetime.Transient, CtorSpec.value u, none⟩] else []) = _
    rw [if_pos htag]
    rfl
  have hmold : matchesRev (resolveAliases w3 c t) (factoriesOf w c) = [] := by
    refine matchesRev_eq_nil fun g hg => ?_
    rw [hral]
    exact hnm c hcmem g hg
  have hmoldp : matchesRev (resolveAliases w3 c t) (factoriesOf w p) = [] := by
    refine matchesRev_eq_nil fun g hg => ?_
    rw [hral]
    exact hnm p hp g hg
  have hl1nil : collectChain w3 (resolveAliases w3 c t) l1 = [] := by
    refine collectChain_eq_nil fun j hj g hg => ?_
    have hjc : j ≠ c := fun e => hcnotin (e ▸ List.mem_append_left _ hj)
    have hjp : j ≠ p := fun e => hpnotl1 (e ▸ hj)
    rw [hf3_other j hjc hjp] at hg
    rw [hral]
    refine hnm j ?_ g hg
    rw [hrest, hrsplit]
    exact List.mem_cons_of_mem _ (List.mem_append_left _ hj)
  have hl2nil : collectChain w3 (resolveAliases w3 c t) l2 = [] := by
    refine collectChain_eq_nil fun j hj g hg => ?_
    have hjc : j ≠ c := fun e =>
      hcnotin (e ▸ List.mem_append_right _ (List.mem_cons_of_mem _ hj))
    have hjp : j ≠ p := fun e => hpnotl2 (e ▸ hj)
    rw [hf3_other j hjc hjp] at hg
    rw [hral]
    refine hnm j ?_ g hg
    rw [hrest, hrsplit]
    exact List.mem_cons_of_mem _ (List.mem_append_right _ (List.mem_cons_of_mem _ hj))
  have hcollect : collectFactories w3 c t
      = [⟨wB.nextFid, t, Lifetime.Transient, CtorSpec.value v2, none⟩,
         ⟨wA.nextFid, t, Lifetime.Transient, CtorSpec.value v1, none⟩,
         ⟨w.nextFid, t, Lifetime.Transient, CtorSpec.value u, none⟩] := by
    unfold collectFactories
    rw [hch3, hrsplit]
    show matchesRev (resolveAliases w3 c t) (factoriesOf w3 c)
        ++ collectChain w3 (resolveAliases w3 c t) (l1 ++ p :: l2) = _
    rw [collectChain_append, hf3_c, matchesRev_append, matchesRev_append, hm2, hm1, hmold,
      hl1nil]
    show _ ++ ([] ++ (matchesRev (resolveAliases w3 c t) (factoriesOf w3 p)
      ++ collectChain w3 (resolveAliases w3 c t) l2)) = _
    rw [hf3_p, matchesRev_append, hmu, hmoldp, hl2nil]
    simp
  have hall : resolveAllFuel (fuel2+1+1) w3 c t = (w3, Except.ok [u, v1, v2]) := by
    unfold resolveAllFuel
    rw [hcollect]
    show resolveAllLoop (fuel2+1+1) c w3
      ([((w.nextFid : Nat), t, u), ((wA.nextFid : Nat), t, v1), ((wB.nextFid : Nat), t, v2)].map
        fun q => ⟨q.1, q.2.1, Lifetime.Transient, CtorSpec.value q.2.2, none⟩) = _
    rw [resolveAllLoop_value_list fuel2 c
      [((w.nextFid : Nat), t, u), ((wA.nextFid : Nat), t, v1), ((wB.nextFid : Nat), t, v2)] w3]
    rfl
  exact ⟨hres, hall⟩

/-- Scenario world for the C4 witness: a root with one child scope. -/
def wC4 : World := (newScope World.init 0).1

/-- C4 witness: values 1 and 2 and 3 under the same tag, the first on the
root, the next two on the child; `Resolve` yields 3, `ResolveAll` yields
all three oldest-first. -/
theorem C4_shadowing_witness :
    resolveFuel 9 (useValueOp (useValueOp (useValueOp wC4 0 "x" (Value.vnat 1))
        1 "x" (Value.vnat 2)) 1 "x" (Value.vnat 3)) 1 "x"
      = (useValueOp (useValueOp (useValueOp wC4 0 "x" (Value.vnat 1))
          1 "x" (Value.vnat 2)) 1 "x" (Value.vnat 3), Except.ok (Value.vnat 3)) ∧
    resolveAllFuel 9 (useValueOp (useValueOp (useValueOp wC4 0 "x" (Value.vnat 1))
        1 "x" (Value.vnat 2)) 1 "x" (Value.vnat 3)) 1 "x"
      = (useValueOp (useValueOp (useValueOp wC4 0 "x" (Value.vnat 1))
          1 "x" (Value.vnat 2)) 1 "x" (Value.vnat 3),
         Except.ok [Value.vnat 1, Value.vnat 2, Value.vnat 3]) :=
  C4_shadowing wC4 1 0 "x" (Value.vnat 1) (Value.vnat 2) (Value.vnat 3) 6 7
    rfl (by decide) (by decide) (by decide) (by decide)

/-- C1 counterexample to the claim as stated: with no factory registered at
all, `ResolveAll` does not return the `ErrNoMatchingTag` error — it returns
an empty instance list with a nil error (container.go lines 376-385). -/
theorem C1_resolveAll_counterexample :
    (resolveAllFuel 9 World.init 0 "missing").2 = Except.ok ([] : List Value) ∧
    (resolveAllFuel 9 World.init 0 "missing").2 ≠ Except.error errNoMatchingTag := by
  constructor
  · rfl
  · rw [show (resolveAllFuel 9 World.init 0 "missing").2 = Except.ok ([] : List Value)
      from rfl]
    simp

/-- C1 (amended).  For a tag `t` with no factory record whose tag lies in
`t`'s alias set anywhere on the container chain: `Resolve` returns
`ErrNoMatchingTag` and no instance, `Inject` on a record with a field
annotated `t` returns that field's resolution error `ErrNoMatchingTag`
(earlier fields being unannotated), but `ResolveAll` returns an empty
instance list with a nil error. -/
theorem C1_no_matching_tag (w : World) (c : Nat) (t : String) (fuel fuel2 fuel3 : Nat)
    (fs1 : List (String × Option String × Value)) (nm : String) (v0 : Value)
    (fs2 : List (String × Option String × Value))
    (hnm : ∀ j ∈ chain w c, ∀ g ∈ factoriesOf w j, g.tag ∉ resolveAliases w c t)
    (huntag : ∀ q ∈ fs1, q.2.1 = none)
    (hfuel : fs1.length + 2 ≤ fuel3) :
    resolveFuel (fuel+1) w c t = (w, Except.error errNoMatchingTag) ∧
    resolveAllFuel fuel2 w c t = (w, Except.ok []) ∧
    injectValue fuel3 w c (Value.record (fs1 ++ (nm, some t, v0) :: fs2))
      = (w, InjectResult.err errNoMatchingTag
            (Value.record (fs1 ++ (nm, some t, v0) :: fs2))) := by
  refine ⟨resolve_noMatch fuel hnm, resolveAll_noMatch fuel2 hnm, ?_⟩
  show (match injectFieldsFuel fuel3 w c (fs1 ++ (nm, some t, v0) :: fs2) with
        | (w1, fs, some e) => (w1, InjectResult.err e (Value.record fs))
        | (w1, fs, none) => (w1, InjectResult.ok (Value.record fs))) = _
  rw [injectFields_noMatch fs1 fuel3 w c nm t v0 fs2 huntag hnm hfuel]

/-- C1 witness. -/
theorem C1_no_matching_tag_witness :
    resolveFuel 9 World.init 0 "missing" = (World.init, Except.error errNoMatchingTag) ∧
    resolveAllFuel 9 World.init 0 "missing" = (World.init, Except.ok []) ∧
    injectValue 9 World.init 0
        (Value.record [("A", none, Value.vnat 1), ("B", some ("missing"), Value.unit)])
      = (World.init, InjectResult.err errNoMatchingTag
          (Value.record [("A", none, Value.vnat 1), ("B", some ("missing"), Value.unit)])) :=
  C1_no_matching_tag World.init 0 "missing" 8 9 9
    [("A", none, Value.vnat 1)] "B" Value.unit [] (by decide)
    (by intro q hq; simp at hq; rw [hq]) (by decide)

/-- C9.  The synthetic constructor installed by `UseType` discards the
result of the field injection it performs: resolving a tag bound to a
`typeStruct` factory returns the constructed record with a nil error even
when injection of its annotated field fails for lack of a matching record,
leaving every field (in particular the failing one) at its zero value. -/
theorem C9_useType_discards_inject_error (w : World) (c : Nat) (T : String) (fuel : Nat)
    (f : Factory) (fields fs1 : List (String × Option String)) (nm t : String)
    (fs2 : List (String × Option String))
    (hfind : findFactory w c (resolveAliases w c T) = some f)
    (hctor : f.ctor = CtorSpec.typeStruct fields)
    (hdtor : f.dtor = none)
    (hmiss : cacheProbe w c (rootOf w c) f = none)
    (hfields : fields = fs1 ++ (nm, some t) :: fs2)
    (huntag : ∀ q ∈ fs1, q.2 = none)
    (hnm : ∀ j ∈ chain w c, ∀ g ∈ factoriesOf w j, g.tag ∉ resolveAliases w c t)
    (hfuel : fs1.length + 2 ≤ fuel) :
    (resolveFuel (fuel+1+1+1) w c T).2
      = Except.ok (Value.record (fields.map fun q => (q.1, q.2, Value.unit))) := by
  have hzero : fields.map (fun q => (q.1, q.2, Value.unit))
      = (fs1.map fun q => (q.1, q.2, Value.unit))
        ++ (nm, some t, Value.unit) :: (fs2.map fun q => (q.1, q.2, Value.unit)) := by
    rw [hfields]
    simp
  have hrun : runCtorFuel (fuel+1) w c (CtorSpec.typeStruct fields)
      = (w, Except.ok (Value.record (fields.map fun q => (q.1, q.2, Value.unit)))) := by
    show ((injectFieldsFuel fuel w c (fields.map fun q => (q.1, q.2, Value.unit))).1,
      Except.ok (Value.record
        (injectFieldsFuel fuel w c (fields.map fun q => (q.1, q.2, Value.unit))).2.1)) = _
    rw [hzero, injectFields_noMatch (fs1.map fun q => (q.1, q.2, Value.unit)) fuel w c
      nm t Value.unit (fs2.map fun q => (q.1, q.2, Value.unit))
      (by intro q hq; rcases List.mem_map.mp hq with ⟨x, hx, rfl⟩; exact huntag x hx) hnm
      (by simp at hfuel ⊢; omega)]
  rw [resolveFuel_succ, hfind]
  show (createFuel (fuel+1+1) w c f).2 = _
  rw [createFuel_succ, hmiss]
  show (match runCtorFuel (fuel+1) w c f.ctor with
        | (w1, Except.error e) => (w1, Except.error e)
        | (w1, Except.ok inst) =>
          (dtorStep (storeStep w1 c (rootOf w c) f inst) c (rootOf w c) f inst,
           Except.ok inst)).2 = _
  rw [hctor, hrun]

/-- Scenario world for the C9 witness: a struct type registered under `T`
whose annotated field references the unregistered tag `missing`. -/
def wC9 : World := useTypeOp World.init 0 "T" [("Dep", some ("missing"))] Lifetime.Transient

def fC9 : Factory :=
  ⟨0, "T", Lifetime.Transient, CtorSpec.typeStruct [("Dep", some ("missing"))], none⟩

/-- C9 witness. -/
theorem C9_useType_discards_inject_error_witness :
    (resolveFuel 5 wC9 0 "T").2
      = Except.ok (Value.record
          ([("Dep", some ("missing"))].map fun q => (q.1, q.2, Value.unit))) :=
  C9_useType_discards_inject_error wC9 0 "T" 2 fC9 [("Dep", some ("missing"))] []
    "Dep" "missing" [] rfl rfl rfl rfl rfl (fun q hq => nomatch hq) (by decide) (by decide)

/-- Scenario world for the C3 witness: a root with two child scopes. -/
def wC3 : World := (newScope (newScope World.init 0).1 0).1

def fC3 : Factory := ⟨5, "s", Lifetime.Scoped, CtorSpec.fresh, none⟩

/-- C3 witness: the two children of the root each get their own Scoped
instance, repeated resolution on the first child hits its cache. -/
theorem C3_scoped_cache_witness :
    ∃ w1 w2 : World,
      createFuel 3 wC3 1 fC3 = (w1, Except.ok (Value.obj wC3.nextAlloc)) ∧
      lookupCache w1 1 fC3.fid = some (Value.obj wC3.nextAlloc) ∧
      createFuel 3 w1 1 fC3 = (w1, Except.ok (Value.obj wC3.nextAlloc)) ∧
      lookupCache w1 2 fC3.fid = none ∧
      createFuel 3 w1 2 fC3 = (w2, Except.ok (Value.obj w1.nextAlloc)) ∧
      w1.nextAlloc = wC3.nextAlloc + 1 ∧
      Value.obj w1.nextAlloc ≠ Value.obj wC3.nextAlloc :=
  C3_scoped_cache wC3 1 2 0 fC3 1 2 1 rfl rfl rfl (by decide) rfl rfl (by decide) rfl rfl

/-- C2.  A successful resolution of a Singleton factory from any container
`c1` leaves the instance in the cache of the root of `c1`; a subsequent
resolution of the same record from any container `c2` of the same tree is a
root-cache hit returning the very same instance with no state change; and
the record's cache entry is never stored on any non-root container. -/
theorem C2_singleton_root_cache (w w1 : World) (c1 c2 : Nat) (f : Factory) (v : Value)
    (fuel fuel2 : Nat)
    (hwf : WFw w) (hc1 : c1 < w.containers.length)
    (hlt : f.lifetime = Lifetime.Singleton)
    (hin : FacIn w f) (hdis : FidsDistinct w)
    (hroot : rootOf w c2 = rootOf w c1)
    (hrun : createFuel (fuel+1) w c1 f = (w1, Except.ok v)) :
    lookupCache w1 (rootOf w c1) f.fid = some v ∧
    createFuel (fuel2+1) w1 c2 f = (w1, Except.ok v) ∧
    (∀ i, i ≠ rootOf w c1 → lookupCache w1 i f.fid = lookupCache w i f.fid) := by
  have hrlt : rootOf w c1 < w.containers.length := rootOf_lt_length hwf hc1
  have hprobe : cacheProbe w c1 (rootOf w c1) f = lookupCache w (rootOf w c1) f.fid :=
    cacheProbe_singleton w c1 (rootOf w c1) hlt
  cases hl : lookupCache w (rootOf w c1) f.fid with
  | some cached =>
    have hhit : createFuel (fuel+1) w c1 f = (w, Except.ok cached) := by
      rw [createFuel_succ, hprobe, hl]
    have hcomb := hhit.symm.trans hrun
    have hw : w = w1 := congrArg Prod.fst hcomb
    have hv : cached = v := Except.ok.inj (congrArg Prod.snd hcomb)
    subst hv
    rw [← hw]
    refine ⟨hl, ?_, fun i _ => rfl⟩
    rw [createFuel_succ, cacheProbe_singleton w c2 (rootOf w c2) hlt, hroot, hl]
  | none =>
    have hun : createFuel (fuel+1) w c1 f
        = (match runCtorFuel fuel w c1 f.ctor with
           | (wx, Except.error e) => (wx, Except.error e)
           | (wx, Except.ok inst) =>
             (dtorStep (storeStep wx c1 (rootOf w c1) f inst) c1 (rootOf w c1) f inst,
              Except.ok inst)) := by
      rw [createFuel_succ, hprobe, hl]
    rcases hct : runCtorFuel fuel w c1 f.ctor with ⟨wc, rc⟩
    rw [hct] at hun
    cases rc with
    | error e =>
      have hcomb := hun.symm.trans hrun
      have := congrArg Prod.snd hcomb
      simp at this
    | ok inst =>
      have hcomb := hun.symm.trans hrun
      have hw1 : w1 = dtorStep (storeStep wc c1 (rootOf w c1) f inst) c1 (rootOf w c1) f inst :=
        (congrArg Prod.fst hcomb).symm
      have hv : inst = v := Except.ok.inj (congrArg Prod.snd hcomb)
      rw [hv] at hw1
      have hfr : FrameP c1 (FacIn w) w wc := by
        have h := (evalFrame fuel).2.2.1 w c1 f.ctor
        rwa [hct] at h
      have k1 : lookupCache w1 (rootOf w c1) f.fid = some v := by
        rw [hw1, lookupCache_dtorStep, storeStep_singleton wc c1 (rootOf w c1) v hlt]
        exact lookupCache_cacheStore_self wc f.fid v (by rw [hfr.len]; omega)
      have hpar : ∀ j, parentOf w1 j = parentOf w j := by
        intro j
        rw [hw1, parentOf_dtorStep, parentOf_storeStep, hfr.parent]
      have k2 : createFuel (fuel2+1) w1 c2 f = (w1, Except.ok v) := by
        rw [createFuel_succ, cacheProbe_singleton w1 c2 (rootOf w1 c2) hlt,
          rootOf_congr hpar c2, hroot, k1]
      have k3 : ∀ i, i ≠ rootOf w c1 → lookupCache w1 i f.fid = lookupCache w i f.fid := by
        intro i hi
        rw [hw1, lookupCache_dtorStep, storeStep_singleton wc c1 (rootOf w c1) v hlt,
          lookupCache_cacheStore_ne wc v (Or.inl hi)]
        rcases hfr.cache i f.fid with h | ⟨g, hgin, hfid, hcase⟩
        · exact h
        · have hgf : g = f := fid_inj hdis hgin hin hfid.symm
          subst hgf
          rcases hcase with ⟨hs, _⟩ | ⟨_, hieq⟩
          · rw [hlt] at hs
            cases hs
          · exact absurd hieq hi
      exact ⟨k1, k2, k3⟩

/-- Scenario world for the C2 witness: a root carrying one Singleton
factory, with two child scopes. -/
def wC2 : World :=
  useFactoryOp (newScope (newScope World.init 0).1 0).1 0 "s"
    CtorSpec.fresh none Lifetime.Singleton

def fC2 : Factory := ⟨0, "s", Lifetime.Singleton, CtorSpec.fresh, none⟩

/-- C2 witness: resolving from child 1 populates the root cache; resolving
from child 2 returns the same instance; no non-root cache is touched. -/
theorem C2_singleton_root_cache_witness :
    lookupCache (cacheStore { wC2 with nextAlloc := 1 } 0 0 (Value.obj 0))
      (rootOf wC2 1) fC2.fid = some (Value.obj 0) ∧
    createFuel 3 (cacheStore { wC2 with nextAlloc := 1 } 0 0 (Value.obj 0)) 2 fC2
      = (cacheStore { wC2 with nextAlloc := 1 } 0 0 (Value.obj 0), Except.ok (Value.obj 0)) ∧
    (∀ i, i ≠ rootOf wC2 1 →
      lookupCache (cacheStore { wC2 with nextAlloc := 1 } 0 0 (Value.obj 0)) i fC2.fid
        = lookupCache wC2 i fC2.fid) :=
  C2_singleton_root_cache wC2 (cacheStore { wC2 with nextAlloc := 1 } 0 0 (Value.obj 0))
    1 2 fC2 (Value.obj 0) 2 2 rfl (by decide) rfl
    ⟨0, by show fC2 ∈ [fC2]; exact List.mem_singleton.mpr rfl⟩
    (by unfold FidsDistinct; decide) rfl rfl

/-- Scenario world for the C5 witness: two Transient factories with
destructors registered on the root and both resolved, so two teardown
closures are pending, the later-recorded one failing. -/
def wC5 : World :=
  (resolveFuel 9 (resolveFuel 9
    (useFactoryOp
      (useFactoryOp World.init 0 "d1" CtorSpec.fresh (some DtorSpec.ok) Lifetime.Transient)
      0 "d2" CtorSpec.fresh (some (DtorSpec.fail ("boom"))) Lifetime.Transient)
    0 "d1").1 0 "d2").1

def dsC5 : List Pending :=
  [⟨0, Value.obj 0, DtorSpec.ok⟩, ⟨1, Value.obj 1, DtorSpec.fail ("boom")⟩]

/-- C5 witness: two successfully recorded destructors, the later-recorded
one failing, torn down in reverse order. -/
theorem C5_close_reverse_teardown_witness :
    (closeContainer wC5 0).1 = modifyCS wC5 0 (fun cs => { cs with destructors := [] }) ∧
    destructorsOf (closeContainer wC5 0).1 0 = [] ∧
    (∀ i, i ≠ 0 → ctsOf (closeContainer wC5 0).1 i = ctsOf wC5 i) ∧
    (closeContainer wC5 0).2 = (runDtors dsC5.reverse).2 ∧
    ((∀ d ∈ dsC5, d.spec = DtorSpec.ok) →
      runDtors dsC5.reverse = (dsC5.reverse, Except.ok ())) ∧
    (∀ l1 d l2 e, dsC5.reverse = l1 ++ d :: l2 → (∀ x ∈ l1, x.spec = DtorSpec.ok) →
      d.spec = DtorSpec.fail e →
      (closeContainer wC5 0).2 = Except.error e ∧
      runDtors dsC5.reverse = (l1 ++ [d], Except.error e)) :=
  C5_close_reverse_teardown wC5 0 dsC5 rfl

end GoDi
